import Mathlib

/-!
Shallow embedding of the Bader charge-partitioning analysis code
(`src/methods.rs`, `src/analysis.rs`, `src/io/output.rs`) over exact
rational arithmetic.  `f64` values are modelled as `ℚ`; the IEEE
`+INFINITY` sentinel used for running minimum distances is modelled as
`Option ℚ` with `none` standing for infinity; `f64::powf(0.5)` (square
root), which has no exact rational counterpart, is threaded through as an
explicit oracle parameter `sq : ℚ → ℚ`.  Slice indexing that the Rust
code performs within bounds is modelled with `List.getD`; lookups the
Rust code `unwrap`s are modelled in `Option`.
-/

namespace Bader

/-- A triple of rationals, modelling a `[f64; 3]` vector. -/
abbrev Q3 := ℚ × ℚ × ℚ

/-- A 3×3 rational matrix given as three rows, modelling `[[f64; 3]; 3]`. -/
abbrev Mat3 := Q3 × Q3 × Q3

/-- Modelled from the spec: `utils::dot` (the `utils` module is not in
`src/`), the row-vector-by-matrix product used by `to_cartesian` /
`to_fractional` transforms. -/
def dot (v : Q3) (m : Mat3) : Q3 :=
  (v.1 * m.1.1 + v.2.1 * m.2.1.1 + v.2.2 * m.2.2.1,
   v.1 * m.1.2.1 + v.2.1 * m.2.1.2.1 + v.2.2 * m.2.2.2.1,
   v.1 * m.1.2.2 + v.2.1 * m.2.1.2.2 + v.2.2 * m.2.2.2.2)

/-- Componentwise sum of two vectors (`atom + atom_shift` in the source). -/
def add3 (a b : Q3) : Q3 := (a.1 + b.1, a.2.1 + b.2.1, a.2.2 + b.2.2)

/-- The squared Euclidean distance `(a0-b0)^2 + (a1-b1)^2 + (a2-b2)^2`,
exactly the three `powi(2)` summands of the source distance loops. -/
def sqDist (a b : Q3) : ℚ :=
  (a.1 - b.1) ^ 2 + (a.2.1 - b.2.1) ^ 2 + (a.2.2 - b.2.2) ^ 2

/-- Decoding of a compact mixture entry: `*maxima_weight as usize`
(`methods.rs` line 75, `analysis.rs` lines 169, 530).  The `f64 → usize`
cast truncates toward zero and saturates at 0, which on `ℚ` is
`⌊x⌋.toNat` for every input that is either nonnegative or negative. -/
def decode_maxima (x : ℚ) : ℕ := ⌊x⌋.toNat

/-- Decoding of a compact mixture weight: `maxima_weight - maxima as f64`
(`methods.rs` line 76, `analysis.rs` lines 170, 531). -/
def decode_weight (x : ℚ) : ℚ := x - (decode_maxima x : ℚ)

/-- Encoding of a mixture entry: `*maxima as f64 + w` (`methods.rs`
line 110, with `w` the renormalized weight there). -/
def encode_weight (m : ℕ) (w : ℚ) : ℚ := (m : ℚ) + w

/-- The fractional wrap `x.rem_euclid(1.0)` used on LLL-fractional
coordinates (`analysis.rs` lines 55, 189, 550): the Euclidean remainder
of `x` by 1, which over exact arithmetic is `x - ⌊x⌋`. -/
def remEuclidOne (x : ℚ) : ℚ := x - (⌊x⌋ : ℚ)

/-- Componentwise `rem_euclid(1.)` over a fractional coordinate triple,
modelling the `for f in &mut ... { *f = f.rem_euclid(1.); }` loops. -/
def wrap3 (v : Q3) : Q3 := (remEuclidOne v.1, remEuclidOne v.2.1, remEuclidOne v.2.2)

/-- Comparison of a finite squared distance against the running minimum,
where `none` models the `f64::INFINITY` initial value
(`distance < *minimum_distance` in the source). -/
def ltInf (d : ℚ) (cur : Option ℚ) : Bool :=
  match cur with
  | none => true
  | some v => decide (d < v)

/-- Pointwise `f64::min` on running minima, `none` modelling `INFINITY`
(`*a = a.min(b)` in the reduction of `sum_bader_densities`). -/
def minInf (a b : Option ℚ) : Option ℚ :=
  match a, b with
  | none, b => b
  | some v, none => some v
  | some v, some w => some (min v w)

/-- Association-list lookup modelling `FxHashMap::get` (first matching
key). -/
def alookup (m : List (ℕ × β)) (k : ℕ) : Option β :=
  match m with
  | [] => none
  | e :: es => if e.1 = k then some e.2 else alookup es k

/-- Successive chunks of size `n` with a shorter final chunk, modelling
`slice::chunks(n)`. -/
def chunksOf (n : ℕ) : List α → List (List α)
  | [] => []
  | x :: xs =>
    if n = 0 then [x :: xs]
    else (x :: xs).take n :: chunksOf n ((x :: xs).drop n)
termination_by l => l.length
decreasing_by
  simp only [List.length_drop, List.length_cons]
  omega

/-- A lattice as used by the analysis: the `to_cartesian` basis matrix and
the cell volume.  Modelled from the spec (§3, the `atoms` module is not in
`src/`). -/
structure Lattice where
  to_cartesian : Mat3
  volume : ℚ

/-- An LLL-reduced lattice: fractional/Cartesian transforms plus the
27-entry `cartesian_shift_matrix`.  Modelled from the spec (§3/§4.1, the
`atoms` module is not in `src/`); the shift matrix is kept as an abstract
list field so theorems can quantify over it. -/
structure ReducedLattice where
  to_fractional : Mat3
  to_cartesian : Mat3
  cartesian_shift_matrix : List Q3

/-- Atom data consumed by the analysis: Cartesian positions, their images
in the reduced lattice, and the reduced lattice itself.  Modelled from the
spec (§3, the `atoms` module is not in `src/`). -/
structure Atoms where
  positions : List Q3
  reduced_positions : List Q3
  reduced_lattice : ReducedLattice

/-- Grid dimensions. Modelled from the spec (§3, the grid module is not in
`src/`). -/
structure GridSize where
  x : ℕ
  y : ℕ
  z : ℕ

/-- The total number of voxels `nx·ny·nz`. -/
def GridSize.total (s : GridSize) : ℕ := s.x * s.y * s.z

/-- The Voronoi neighbour table: shift vectors and their alpha weights.
Modelled from the spec (§3/§4.2, the `voronoi` module is not in `src/`). -/
structure Voronoi where
  vectors : List (Int × Int × Int)
  alphas : List ℚ

/-- The density grid: sizes, the voxel lattice, the Voronoi table and the
fractional voxel origin.  Modelled from the spec (§3/§4.3, the grid module
is not in `src/`). -/
structure Grid where
  size : GridSize
  voxel_lattice : Lattice
  voronoi : Voronoi
  voxel_origin : Q3

/-- Decomposition of a flat voxel index into `(i, j, k)` with the
row-major, `k`-fastest stride convention, plus the voxel-origin offset.
Modelled from the spec (§4.3): `grid.to_cartesian(p)` returns the
fractional voxel coordinate that the callers then multiply by
`voxel_lattice.to_cartesian`. -/
def Grid.to_cartesian (g : Grid) (p : Int) : Q3 :=
  let n := p.toNat
  let i := n / (g.size.y * g.size.z)
  let j := n % (g.size.y * g.size.z) / g.size.z
  let k := n % g.size.z
  ((i : ℚ) + g.voxel_origin.1, (j : ℚ) + g.voxel_origin.2.1,
   (k : ℚ) + g.voxel_origin.2.2)

/-- Periodic neighbour lookup: the flat index of `p + v` with per-axis
wraparound.  Modelled from the spec (§4.3, `voronoi_shift`). -/
def Grid.voronoi_shift (g : Grid) (p : Int) (v : Int × Int × Int) : Int :=
  let n := p.toNat
  let i := (n / (g.size.y * g.size.z) : Int)
  let j := (n % (g.size.y * g.size.z) / g.size.z : Int)
  let k := (n % g.size.z : Int)
  let i2 := (i + v.1).emod g.size.x
  let j2 := (j + v.2.1).emod g.size.y
  let k2 := (k + v.2.2).emod g.size.z
  i2 * (g.size.y * g.size.z) + j2 * g.size.z + k2

/-- The voxel map consumed by the analysis pass: per-voxel signed states,
the append-only mixture table, and the maxima-to-column index map of the
`NonBlockingVoxelMap`.  Modelled from the spec (§3/§4.4, the `voxel_map`
module is not in `src/`): a state `v ≥ 0` denotes `Maximum(v)`, `v = -1`
vacuum, `v < -1` the mixture stored at slot `-v - 2`.  The `FxHashMap`
`maxima_map` is modelled as an association list. -/
structure VoxelMap where
  grid : Grid
  voxel_map : List Int
  weight_map : List (List ℚ)
  maxima_map : List (ℕ × ℕ)

/-- Read of a published voxel state (`maxima_get`); reads the analysis
performs are in bounds, out-of-range indices default to the vacuum
marker. -/
def VoxelMap.maxima_get (vm : VoxelMap) (p : Int) : Int :=
  vm.voxel_map.getD p.toNat (-1)

/-- Mixture lookup `weight_get(v)`: decode the slot index `-v - 2` and
return the stored compact list. -/
def VoxelMap.weight_get (vm : VoxelMap) (v : Int) : List ℚ :=
  vm.weight_map.getD ((-v) - 2).toNat []

/-- The three voxel states of `voxel_map::Voxel`. -/
inductive Voxel where
  | Maxima (m : ℕ)
  | Weight (ws : List ℚ)
  | Vacuum

/-- Decode of a voxel state (`voxel_get`), mirroring the `cmp(&-1)`
matches of the analysis code. -/
def VoxelMap.voxel_get (vm : VoxelMap) (p : Int) : Voxel :=
  let v := vm.maxima_get p
  if v > -1 then .Maxima v.toNat
  else if v < -1 then .Weight (vm.weight_get v)
  else .Vacuum

end Bader

namespace Bader

/-- The three outcomes of `weight_step` (`methods.rs`, `WeightResult`). -/
inductive WeightResult where
  | Maxima
  | Interier (m : ℕ)
  | Boundary (ws : List ℚ)
deriving DecidableEq

/-- The `FxHashMap::entry(maxima).or_insert(0.); *weight += v` update of
the bucket map of `weight_step`, modelled on an association list kept in
first-insertion order. -/
def add_entry (l : List (ℕ × ℚ)) (m : ℕ) (v : ℚ) : List (ℕ × ℚ) :=
  match l with
  | [] => [(m, v)]
  | e :: es => if e.1 = m then (e.1, e.2 + v) :: es else e :: add_entry es m v

/-- The neighbour scan of `weight_step` (`methods.rs` lines 58-89): for
every Voronoi neighbour with positive density difference, accumulate the
flux `charge_diff * alpha` into the bucket of the neighbour's maxima (or,
for a mixture neighbour, spread it over the mixture's constituents), and
track the total upward flux `t_sum`. -/
def weight_step_scan_step (p : Int) (density : List ℚ)
    (voxel_map : VoxelMap) (acc : List (ℕ × ℚ) × ℚ)
    (sa : (Int × Int × Int) × ℚ) : List (ℕ × ℚ) × ℚ :=
  let control := density.getD p.toNat 0
  let grid := voxel_map.grid
  let pt := grid.voronoi_shift p sa.1
  let charge_diff := density.getD pt.toNat 0 - control
  if 0 < charge_diff then
    let rho := charge_diff * sa.2
    let maxima := voxel_map.maxima_get pt
    let ws :=
      if maxima < -1 then
        (voxel_map.weight_get maxima).foldl
          (fun w mw => add_entry w (decode_maxima mw) (decode_weight mw * rho))
          acc.1
      else if -1 < maxima then add_entry acc.1 maxima.toNat rho
      else acc.1
    (ws, acc.2 + rho)
  else acc

/-- The neighbour scan of `weight_step`, folded over the zipped Voronoi
table. -/
def weight_step_scan (p : Int) (density : List ℚ) (voxel_map : VoxelMap) :
    List (ℕ × ℚ) × ℚ :=
  (voxel_map.grid.voronoi.vectors.zip voxel_map.grid.voronoi.alphas).foldl
    (weight_step_scan_step p density voxel_map) ([], 0)

/-- The descending sort `weights.sort_by(|a, b| b.1.partial_cmp(&a.1))`
of `weight_step` (`methods.rs` line 106), modelled by insertion sort on
the non-increasing-weight relation. -/
def sortWeightsDesc (l : List (ℕ × ℚ)) : List (ℕ × ℚ) :=
  l.insertionSort (fun a b => b.2 ≤ a.2)

/-- The post-scan classification of `weight_step` (`methods.rs` lines
91-122): with more than one bucket, normalize by `t_sum`, keep weights
strictly above the tolerance while accumulating their sum `total`, then
either report the lone surviving maximum as interior or sort descending,
renormalize by `total` and emit the compact boundary list.  The
`weights[0]` indexing of the source panics when no weight survives;
that case is `none`. -/
def survivorsOf (weights : List (ℕ × ℚ)) (t_sum tol : ℚ) :
    List (ℕ × ℚ) :=
  weights.filterMap (fun mw =>
    let w := mw.2 / t_sum
    if tol < w then some (mw.1, w) else none)

/-- The post-scan classification of `weight_step`, continued: see
`survivorsOf` for the tolerance filter. -/
def weight_step_post (weights : List (ℕ × ℚ)) (t_sum : ℚ)
    (weight_tolerance : ℚ) : Option WeightResult :=
  if 1 < weights.length then
    let survivors := survivorsOf weights t_sum weight_tolerance
    let total := (survivors.map (·.2)).sum
    if 1 < survivors.length then
      some (.Boundary ((sortWeightsDesc survivors).map
        (fun mw => encode_weight mw.1 (mw.2 / total))))
    else
      match survivors with
      | s :: _ => some (.Interier s.1)
      | [] => none
  else if weights.length = 1 then
    some (.Interier (weights.headD (0, 0)).1)
  else some .Maxima

/-- `weight_step` (`methods.rs` lines 53-123): scan the Voronoi
neighbours of `p` and classify `p` as a new maximum, an interior voxel,
or a boundary voxel with a compact sorted weight list. -/
def weight_step (p : Int) (density : List ℚ) (voxel_map : VoxelMap)
    (weight_tolerance : ℚ) : Option WeightResult :=
  let s := weight_step_scan p density voxel_map
  weight_step_post s.1 s.2 weight_tolerance

end Bader

namespace Bader

/-- The coordinate pipeline shared by `maxima_to_atom` (`analysis.rs`
lines 49-59) and the surface-distance blocks of `sum_densities` and
`charge_sum`: grid index → Cartesian → LLL-fractional → wrap each
coordinate with `rem_euclid(1.)` → LLL-Cartesian. -/
def toLLLCartesian (grid : Grid) (rl : ReducedLattice) (p : Int) : Q3 :=
  let cart := dot (grid.to_cartesian p) grid.voxel_lattice.to_cartesian
  let frac := dot cart rl.to_fractional
  dot (wrap3 frac) rl.to_cartesian

/-- The inner shift loop of `maxima_to_atom` (`analysis.rs` lines 63-81)
for one atom `a` at position index `i`: update the running
`(atom_num, min_distance)` pair over every entry of the
`cartesian_shift_matrix`, keeping a strictly smaller squared distance. -/
def shiftFold (q : Q3) (i : ℕ) (a : Q3) (shifts : List Q3)
    (acc : ℕ × Option ℚ) : ℕ × Option ℚ :=
  shifts.foldl
    (fun acc s =>
      let distance := sqDist q (add3 a s)
      if ltInf distance acc.2 then (i, some distance) else acc)
    acc

/-- The double loop of `maxima_to_atom` over atoms and image shifts
(`analysis.rs` lines 60-82), starting from `atom_num = 0` and
`min_distance = INFINITY`. -/
def argminAtom (q : Q3) (positions : List Q3) (shifts : List Q3) :
    ℕ × Option ℚ :=
  positions.enum.foldl (fun acc ia => shiftFold q ia.1 ia.2 shifts acc)
    (0, none)

/-- `maxima_to_atom` (`analysis.rs` lines 40-88): for each maximum in the
chunk, wrap it into the reduced cell, take the closest atom over all
image shifts, and record `min_distance.powf(0.5)` (the oracle `sq`; a
`none` records the untouched `INFINITY`).  The source wraps the result in
`Ok` unconditionally. -/
def maxima_to_atom (chunk : List Int) (atoms : Atoms) (grid : Grid)
    (sq : ℚ → ℚ) : List ℕ × List (Option ℚ) :=
  let results := chunk.map (fun m =>
    let q := toLLLCartesian grid atoms.reduced_lattice m
    argminAtom q atoms.reduced_positions
      atoms.reduced_lattice.cartesian_shift_matrix)
  (results.map (·.1), results.map (fun r => r.2.map sq))

/-- Replacement of the segment `i..i+seg.length` of `l` by `seg`
(`Vec::splice` as used in `assign_maxima`). -/
def spliceAt (l : List α) (i : ℕ) (seg : List α) : List α :=
  l.take i ++ seg ++ l.drop (i + seg.length)

/-- `assign_maxima` (`analysis.rs` lines 91-139): with more than one
thread, split the maxima into chunks of size
`len/threads + min(len mod threads, 1)`, run `maxima_to_atom` on each and
splice the results back at `chunk_index * chunk_size`; otherwise run
`maxima_to_atom` on the whole list. -/
def assign_maxima (maxima : List Int) (atoms : Atoms) (grid : Grid)
    (threads : ℕ) (sq : ℚ → ℚ) : List ℕ × List (Option ℚ) :=
  if 1 < threads then
    let chunk_size := maxima.length / threads + min (maxima.length % threads) 1
    let chunks := (chunksOf chunk_size maxima).enum
    chunks.foldl
      (fun acc ic =>
        let r := maxima_to_atom ic.2 atoms grid sq
        let i := ic.1 * chunk_size
        (spliceAt acc.1 i r.1, spliceAt acc.2 i r.2))
      (List.replicate maxima.length 0, List.replicate maxima.length (some 0))
  else maxima_to_atom maxima atoms grid sq

end Bader

namespace Bader

/-- In-place accumulation `l[i] += x` on a vector (`List.set` keeps the
length; the analysis code only writes indices produced by successful map
lookups, which are in bounds for its vectors). -/
def addAt (l : List ℚ) (i : ℕ) (x : ℚ) : List ℚ := l.set i (l.getD i 0 + x)

/-- The boundary-distance update loop shared by `sum_densities`
(`analysis.rs` lines 195-211) and `charge_sum` (lines 556-573): fold the
image shifts, keeping any strictly smaller squared distance from the
wrapped point `q` to `atomPos + shift` in the running minimum. -/
def minShiftSq (rl : ReducedLattice) (q : Q3) (atomPos : Q3)
    (cur : Option ℚ) : Option ℚ :=
  rl.cartesian_shift_matrix.foldl
    (fun cur s =>
      let distance := sqDist q (add3 atomPos s)
      if ltInf distance cur then some distance else cur)
    cur

/-- The mixture loop of `sum_densities` (`analysis.rs` lines 168-179):
for each compact entry decode `(m, weight)`, look its column up in
`maxima_map`, flag an atom boundary when `m` belongs to a different atom
than the first entry, then add the full `densities[i][p]` to each charge
row and `weight` to the volume column.  State is
`(bader_charge, bader_volume, is_atom_boundary)`. -/
def sum_densities_weights (voxel_map : VoxelMap) (atoms_map : List (ℕ × ℕ))
    (densities : List (List ℚ)) (p : ℕ) (atom_number : ℕ) :
    List ℚ → List (List ℚ) × List ℚ × Bool →
    Option (List (List ℚ) × List ℚ × Bool)
  | [], st => some st
  | w :: ws, st => do
      let m := decode_maxima w
      let weight := decode_weight w
      let maxima ← alookup voxel_map.maxima_map m
      let am ← alookup atoms_map m
      sum_densities_weights voxel_map atoms_map densities p atom_number ws
        (st.1.zipWith (fun row d => addAt row maxima (d.getD p 0)) densities,
         addAt st.2.1 maxima weight,
         st.2.2 || decide (am ≠ atom_number))

/-- The per-voxel loop of `sum_densities` (`analysis.rs` lines 154-217)
over the enumerated chunk.  `chunkLen` is `chunk.len()` of the chunk the
worker received, and the global index is computed as
`p = index * chunk.len() + voxel_index`, exactly as in the source. -/
def sum_densities_go (densities : List (List ℚ)) (atoms_map : List (ℕ × ℕ))
    (atoms : Atoms) (voxel_map : VoxelMap) (index : ℕ) (chunkLen : ℕ) :
    List (ℕ × Int) → List (List ℚ) × List ℚ × List (Option ℚ) →
    Option (List (List ℚ) × List ℚ × List (Option ℚ))
  | [], st => some st
  | (voxel_index, voxel) :: rest, st => do
      let p := index * chunkLen + voxel_index
      let st' ←
        if -1 < voxel then do
          let maxima ← alookup voxel_map.maxima_map voxel.toNat
          pure (st.1.zipWith (fun row d => addAt row maxima (d.getD p 0)) densities,
                addAt st.2.1 maxima 1,
                st.2.2)
        else if voxel < -1 then do
          let weights := voxel_map.weight_get voxel
          let w0 ← weights.head?
          let atom_number ← alookup atoms_map (decode_maxima w0)
          let r ← sum_densities_weights voxel_map atoms_map densities p
            atom_number weights (st.1, st.2.1, false)
          if r.2.2 then
            let q := toLLLCartesian voxel_map.grid atoms.reduced_lattice p
            let atom := atoms.reduced_positions.getD atom_number (0, 0, 0)
            pure (r.1, r.2.1,
              st.2.2.set atom_number
                (minShiftSq atoms.reduced_lattice q atom
                  (st.2.2.getD atom_number none)))
          else pure (r.1, r.2.1, st.2.2)
        else pure st
      sum_densities_go densities atoms_map atoms voxel_map index chunkLen rest st'

/-- `sum_densities` (`analysis.rs` lines 141-219): fold a chunk of the
voxel map into per-basin charge and volume accumulators sized by
`maxima_map.len()` and a per-atom running squared surface distance
initialised to `INFINITY`. -/
def sum_densities (chunk : List Int) (densities : List (List ℚ))
    (atoms_map : List (ℕ × ℕ)) (atoms : Atoms) (voxel_map : VoxelMap)
    (index : ℕ) : Option (List (List ℚ) × List ℚ × List (Option ℚ)) :=
  let bader_charge := List.replicate densities.length
    (List.replicate voxel_map.maxima_map.length (0 : ℚ))
  let bader_volume := List.replicate voxel_map.maxima_map.length (0 : ℚ)
  let surface_distance := List.replicate atoms.positions.length (none : Option ℚ)
  sum_densities_go densities atoms_map atoms voxel_map index chunk.length
    chunk.enum (bader_charge, bader_volume, surface_distance)

/-- The `INFINITY` filter applied to surface distances at the end of both
paths of `sum_bader_densities` (`analysis.rs` lines 295-302 and 317-324):
a finite squared distance is square-rooted, `INFINITY` is reset to 0. -/
def finishSurface (sq : ℚ → ℚ) (sd : List (Option ℚ)) : List ℚ :=
  sd.map (fun d => match d with | some v => sq v | none => 0)

/-- `sum_bader_densities` (`analysis.rs` lines 221-328).  With more than
one thread: chunk the voxel map with
`chunk_size = len/threads + min(len mod threads, 1)`, run `sum_densities`
per chunk, reduce the partials with the multiplication by
`voxel_lattice.volume` and the pointwise `min` on distances, then apply
the surface filter.  With one thread: a single `sum_densities` call over
the whole map followed by the surface filter only — the source applies no
volume multiplication on this path. -/
def sum_bader_densities (densities : List (List ℚ)) (voxel_map : VoxelMap)
    (atoms : Atoms) (atoms_map : List (ℕ × ℕ)) (threads : ℕ) (sq : ℚ → ℚ) :
    Option (List (List ℚ) × List ℚ × List ℚ) :=
  if 1 < threads then do
    let volume := voxel_map.grid.voxel_lattice.volume
    let chunk_size := voxel_map.voxel_map.length / threads +
      min (voxel_map.voxel_map.length % threads) 1
    let st ← (chunksOf chunk_size voxel_map.voxel_map).enum.foldlM
      (fun st ic => do
        let r ← sum_densities ic.2 densities atoms_map atoms voxel_map ic.1
        pure (st.1.zipWith (fun a row =>
                a.zipWith (fun x y => x + y * volume) row) r.1,
              st.2.1.zipWith (fun a b => a + b * volume) r.2.1,
              st.2.2.zipWith minInf r.2.2))
      (List.replicate densities.length
         (List.replicate voxel_map.maxima_map.length (0 : ℚ)),
       List.replicate voxel_map.maxima_map.length (0 : ℚ),
       List.replicate atoms.positions.length (none : Option ℚ))
    pure (st.1, st.2.1, finishSurface sq st.2.2)
  else do
    let r ← sum_densities voxel_map.voxel_map densities atoms_map atoms
      voxel_map 0
    pure (r.1, r.2.1, finishSurface sq r.2.2)

end Bader

namespace Bader

/-- The error of the analysis pass (`AnalysisError::NotMaxima`). -/
inductive AnalysisError where
  | NotMaxima
deriving DecidableEq

/-- The `Analysis` structure (`analysis.rs` lines 331-358).  The
`maxima_index` hash map, built by `Analysis::new` by enumerating
`bader_maxima`, is modelled by first-index lookup into `bader_maxima`. -/
structure Analysis where
  assigned_atom : List ℕ
  minimum_distance : List ℚ
  surface_distance : List ℚ
  bader_maxima : List ℕ
  bader_charge : List (List ℚ)
  bader_volume : List ℚ
  atoms_charge : List (List ℚ)
  atoms_volume : List ℚ
  vacuum_charge : List ℚ
  vacuum_volume : ℚ
  total_charge : List ℚ

/-- `Analysis::index_get` (`analysis.rs` lines 418-423): the position of
a maximum in `bader_maxima`, or `NotMaxima`. -/
def Analysis.index_get (a : Analysis) (maxima : ℕ) :
    Except AnalysisError ℕ :=
  match a.bader_maxima.findIdx? (· = maxima) with
  | some i => .ok i
  | none => .error .NotMaxima

/-- `Analysis::atom_get` (`analysis.rs` lines 426-429): the atom assigned
to a maximum. -/
def Analysis.atom_get (a : Analysis) (maxima : ℕ) :
    Except AnalysisError ℕ := do
  let i ← a.index_get maxima
  pure (a.assigned_atom.getD i 0)

/-- The accumulators of `charge_sum` (`analysis.rs` lines 519-522): the
`self` vacuum fields (mutated in place while scanning) and the local
charge, volume and minimum-distance vectors (written to `self` only after
the scan). -/
structure ChargeAcc where
  vacuum_charge : List ℚ
  vacuum_volume : ℚ
  bader_charge : List (List ℚ)
  bader_volume : List ℚ
  minimum_distance : List (Option ℚ)

/-- The mixture loop of `charge_sum` (`analysis.rs` lines 529-540):
decode each compact entry, flag an atom boundary, then add `weight` to
the volume column and `weight * charge[p]` to each charge row.  State is
`(bader_charge, bader_volume, is_atom_boundary)`. -/
def charge_sum_weights (a : Analysis) (densities : List (List ℚ)) (p : ℕ)
    (atom_num : ℕ) :
    List ℚ → List (List ℚ) × List ℚ × Bool →
    Except AnalysisError (List (List ℚ) × List ℚ × Bool)
  | [], st => .ok st
  | w :: ws, st => do
      let maxima := decode_maxima w
      let weight := decode_weight w
      let am ← a.atom_get maxima
      let i ← a.index_get maxima
      charge_sum_weights a densities p atom_num ws
        (st.1.zipWith (fun row d => addAt row i (weight * d.getD p 0)) densities,
         addAt st.2.1 i weight,
         st.2.2 || decide (atom_num ≠ am))

/-- One iteration of the `charge_sum` scan (`analysis.rs` lines 524-591)
at voxel `p`.  Errors can arise only in the `Weight` and `Maxima`
branches, which touch no vacuum accumulator. -/
def charge_sum_step (a : Analysis) (atoms : Atoms)
    (densities : List (List ℚ)) (voxel_map : VoxelMap) (p : ℕ)
    (acc : ChargeAcc) : Except AnalysisError ChargeAcc :=
  let volume := voxel_map.grid.voxel_lattice.volume
  match voxel_map.voxel_get p with
  | .Weight weights => do
      let atom_num ← a.atom_get (decode_maxima (weights.headD 0))
      let r ← charge_sum_weights a densities p atom_num weights
        (acc.bader_charge, acc.bader_volume, false)
      let acc' := { acc with bader_charge := r.1, bader_volume := r.2.1 }
      if r.2.2 then
        let q := toLLLCartesian voxel_map.grid atoms.reduced_lattice p
        let atom := atoms.reduced_positions.getD atom_num (0, 0, 0)
        Except.ok { acc' with
          minimum_distance := acc'.minimum_distance.set atom_num
            (minShiftSq atoms.reduced_lattice q atom
              (acc'.minimum_distance.getD atom_num none)) }
      else Except.ok acc'
  | .Maxima maxima => do
      let i ← a.index_get maxima
      Except.ok { acc with
        bader_volume := addAt acc.bader_volume i 1,
        bader_charge :=
          acc.bader_charge.zipWith (fun row d => addAt row i (d.getD p 0))
            densities }
  | .Vacuum =>
      Except.ok { acc with
        vacuum_volume := acc.vacuum_volume + volume,
        vacuum_charge :=
          acc.vacuum_charge.zipWith (fun v d => v + volume * d.getD p 0)
            densities }

/-- The voxel scan of `charge_sum`: run `charge_sum_step` over the index
list, stopping at the first error with the accumulators reached so far
(the `?` early return of the source). -/
def charge_sum_go (a : Analysis) (atoms : Atoms)
    (densities : List (List ℚ)) (voxel_map : VoxelMap) :
    List ℕ → ChargeAcc → ChargeAcc × Option AnalysisError
  | [], acc => (acc, none)
  | p :: ps, acc =>
      match charge_sum_step a atoms densities voxel_map p acc with
      | .ok acc' => charge_sum_go a atoms densities voxel_map ps acc'
      | .error e => (acc, some e)

/-- `charge_sum` (`analysis.rs` lines 512-610): scan every voxel,
accumulating vacuum charge and volume into `self` and basin charge,
volume and squared surface distance into locals; after a full scan write
the locals back, scaling charges and volumes by `voxel_lattice.volume`
and square-rooting finite surface distances.  On error the vacuum
accumulators keep the partial scan values and the other fields of `self`
are untouched. -/
def charge_sum_init (a : Analysis) (atoms : Atoms) : ChargeAcc :=
  { vacuum_charge := a.vacuum_charge
    vacuum_volume := a.vacuum_volume
    bader_charge := List.replicate a.bader_charge.length
      (List.replicate a.bader_maxima.length (0 : ℚ))
    bader_volume := List.replicate a.bader_maxima.length (0 : ℚ)
    minimum_distance := List.replicate atoms.positions.length
      (none : Option ℚ) }

/-- `charge_sum` (`analysis.rs` lines 512-610), continued: see the
accumulator initialisation above. -/
def charge_sum (a : Analysis) (atoms : Atoms) (densities : List (List ℚ))
    (voxel_map : VoxelMap) (sq : ℚ → ℚ) : Analysis × Option AnalysisError :=
  let volume := voxel_map.grid.voxel_lattice.volume
  match charge_sum_go a atoms densities voxel_map
    (List.range voxel_map.grid.size.total) (charge_sum_init a atoms) with
  | (acc, some e) =>
      ({ a with vacuum_charge := acc.vacuum_charge,
                vacuum_volume := acc.vacuum_volume }, some e)
  | (acc, none) =>
      ({ a with
          vacuum_charge := acc.vacuum_charge
          vacuum_volume := acc.vacuum_volume
          bader_charge := acc.bader_charge.map (fun r => r.map (· * volume))
          bader_volume := acc.bader_volume.map (· * volume)
          surface_distance := acc.minimum_distance.map
            (fun d => match d with | some v => sq v | none => 0) }, none)

end Bader

namespace Bader

/-- One table row of the partitioned charge file: the data passed to
`Table::add_row` (`io/output.rs` lines 133-151); the `{:.6}` string
rendering is presentation and is left out of the model. -/
structure PartitionRow where
  index : ℕ
  position : String × String × String
  density : List ℚ
  volume : ℚ
  distance : ℚ

/-- `partitions_file` (`io/output.rs` lines 6-77): fold the per-basin
densities into totals (the fold is seeded with
`vec![0.0; partitioned_density[0].len()]`, so an empty density list is an
out-of-bounds panic, modelled as `none`), derive the vacuum density and
volume, and emit the rows — sorted by atom number when an `atom_map` is
given (where `atom_map[index[0]]` likewise panics on an empty map), in
input order with 1-based indices otherwise.  The result carries the rows
and the footer numbers
`(vacuum_density, vacuum_volume, total_partitioned_density,
total_partitioned_volume)`. -/
def partitions_file (positions : List (String × String × String))
    (partitioned_density : List (List ℚ)) (partitioned_volume : List ℚ)
    (total_density : List ℚ) (total_volume : ℚ) (distance : List ℚ)
    (atom_map : Option (List ℕ)) :
    Option (List PartitionRow × List ℚ × ℚ × List ℚ × ℚ) := do
  let first ← partitioned_density.head?
  let total_partitioned_density := partitioned_density.foldl
    (fun sum d => sum.zipWith (· + ·) d)
    (List.replicate first.length (0 : ℚ))
  let total_partitioned_volume := partitioned_volume.sum
  let vacuum_density := total_partitioned_density.zipWith
    (fun a b => b - a) total_density
  let vacuum_volume := total_volume - total_partitioned_volume
  match atom_map with
  | some am => do
      let index := (List.range am.length).insertionSort
        (fun a b => am.getD a 0 ≤ am.getD b 0)
      let _ ← index.head?
      let rows := index.map (fun i =>
        PartitionRow.mk i (positions.getD i ("", "", ""))
          (partitioned_density.getD i []) (partitioned_volume.getD i 0)
          (distance.getD i 0))
      pure (rows, vacuum_density, vacuum_volume, total_partitioned_density,
        total_partitioned_volume)
  | none =>
      let rows := (((positions.zip partitioned_density).zip
        partitioned_volume).zip distance).enum.map
        (fun kr => PartitionRow.mk (kr.1 + 1) kr.2.1.1.1 kr.2.1.1.2
          kr.2.1.2 kr.2.2)
      pure (rows, vacuum_density, vacuum_volume, total_partitioned_density,
        total_partitioned_volume)

end Bader

namespace Bader

/-- The wrap agrees with the mathematical fractional part. -/
theorem remEuclidOne_eq_fract (x : ℚ) : remEuclidOne x = Int.fract x := rfl

/-- C8: the fractional wrap `x.rem_euclid(1.0)` used throughout the
analysis is idempotent: `wrap (wrap x) = wrap x` for every input. -/
theorem remEuclidOne_idempotent (x : ℚ) :
    remEuclidOne (remEuclidOne x) = remEuclidOne x := by
  rw [remEuclidOne_eq_fract, remEuclidOne_eq_fract, Int.fract_fract]

/-- Witness for C8 at a concrete input. -/
theorem remEuclidOne_idempotent_witness :
    remEuclidOne (remEuclidOne (29/7)) = remEuclidOne (29/7) :=
  remEuclidOne_idempotent (29/7)

/-- C7: for any integer `m ≥ 0` and weight `w ∈ (0,1)`, the decoding used
by `weight_step` and the analysis pass — truncating `m + w` to an integer
and subtracting — recovers `m` and `w` exactly, inverting the compact
encoding of Boundary results. -/
theorem encode_weight_roundtrip (m : ℕ) (w : ℚ) (h0 : 0 < w) (h1 : w < 1) :
    decode_maxima (encode_weight m w) = m ∧
    decode_weight (encode_weight m w) = w := by
  have hfl : ⌊(m : ℚ) + w⌋ = m := by
    rw [add_comm, Int.floor_add_nat]
    have h : ⌊w⌋ = 0 := Int.floor_eq_zero_iff.mpr ⟨le_of_lt h0, h1⟩
    rw [h]; ring
  refine ⟨?_, ?_⟩
  · simp [decode_maxima, encode_weight, hfl]
  · simp [decode_weight, decode_maxima, encode_weight, hfl]

/-- Witness for C7: decoding `62 + 5/8` recovers `62` and `5/8`. -/
theorem encode_weight_roundtrip_witness :
    (0 : ℚ) < 5/8 ∧ (5/8 : ℚ) < 1 ∧
    (decode_maxima (encode_weight 62 (5/8)) = 62 ∧
     decode_weight (encode_weight 62 (5/8)) = 5/8) :=
  ⟨by norm_num, by norm_num,
   encode_weight_roundtrip 62 (5/8) (by norm_num) (by norm_num)⟩

/-- C9: `partitions_file` panics (out-of-bounds on
`partitioned_density[0]`, modelled as `none`) for every call with an
empty density list, and succeeds on a one-density call, so the `Ok`
branch requires at least one supplied density. -/
theorem partitions_file_requires_density :
    (∀ positions partitioned_volume total_density total_volume distance
        atom_map,
      partitions_file positions [] partitioned_volume total_density
        total_volume distance atom_map = none) ∧
    partitions_file [("0", "0", "0")] [[1]] [1] [1] 1 [0] none =
      some ([⟨1, ("0", "0", "0"), [1], 1, 0⟩], [0], 0, [1], 1) := by
  constructor
  · intro positions pv td tv dist am
    rfl
  · simp [partitions_file, List.enum, List.enumFrom]

end Bader

namespace Bader

/-- The identity basis used by the concrete test inputs. -/
def idMat : Mat3 := ((1, 0, 0), (0, 1, 0), (0, 0, 1))

/-- A one-atom configuration at the origin with an identity reduced
lattice and a single zero image shift, for concrete evaluations. -/
def atoms1 : Atoms :=
  { positions := [(0, 0, 0)]
    reduced_positions := [(0, 0, 0)]
    reduced_lattice :=
      { to_fractional := idMat
        to_cartesian := idMat
        cartesian_shift_matrix := [(0, 0, 0)] } }

/-- A grid of the given dimensions with identity voxel basis, the given
voxel volume and no Voronoi vectors, for concrete evaluations of the
analysis reduction. -/
def gridOf (size : GridSize) (volume : ℚ) : Grid :=
  { size := size
    voxel_lattice := { to_cartesian := idMat, volume := volume }
    voronoi := { vectors := [], alphas := [] }
    voxel_origin := (0, 0, 0) }

/-- A voxel map holding a single boundary voxel whose mixture splits
half-and-half between basins 0 and 1 (compact entries `0 + 1/2` and
`1 + 1/2`). -/
def vmMixture : VoxelMap :=
  { grid := gridOf ⟨1, 1, 1⟩ 1
    voxel_map := [-2]
    weight_map := [[1/2, 3/2]]
    maxima_map := [(0, 0), (1, 1)] }

/-- C1 (failing input): on a single mixture voxel with weights
`(0, 1/2), (1, 1/2)` and density 1, `sum_densities` adds the full
`ρ_d[p] = 1` to both basin charge columns (total 2) while adding the
weights `1/2` to the volume columns; the weighted contribution
`w_i · ρ_d[p]` required by the claim would be `1/2`, not `1`. -/
theorem sum_densities_mixture_charge_unweighted :
    sum_densities [-2] [[1]] [(0, 0), (1, 0)] atoms1 vmMixture 0 =
      some ([[1, 1]], [1/2, 1/2], [none]) ∧ (1 : ℚ) ≠ (1/2) * 1 := by
  constructor
  · norm_num [sum_densities, sum_densities_go, sum_densities_weights,
      vmMixture, VoxelMap.weight_get, decode_maxima, decode_weight, addAt,
      List.enum, List.enumFrom, alookup, atoms1, List.replicate, List.set]
  · norm_num

end Bader

namespace Bader

/-- Two voxels, both interior to basin 0, on a grid whose voxel volume
is 2. -/
def vmTwoVoxels : VoxelMap :=
  { grid := gridOf ⟨2, 1, 1⟩ 2
    voxel_map := [0, 0]
    weight_map := []
    maxima_map := [(0, 0)] }

/-- C4 (failing input): on two basin-0 voxels of density 1 with voxel
volume 2, `sum_bader_densities` returns charge 2 with one thread but 4
with two threads — only the multi-threaded reduction multiplies the
partial sums by `voxel_lattice.volume`, so the two paths disagree
whenever the volume is not 1. -/
theorem sum_bader_densities_thread_dependent :
    sum_bader_densities [[1, 1]] vmTwoVoxels atoms1 [(0, 0)] 1 id =
      some ([[2]], [2], [0]) ∧
    sum_bader_densities [[1, 1]] vmTwoVoxels atoms1 [(0, 0)] 2 id =
      some ([[4]], [4], [0]) ∧
    ([[2]] : List (List ℚ)) ≠ [[4]] := by
  refine ⟨?_, ?_, by norm_num⟩
  · norm_num [sum_bader_densities, sum_densities, sum_densities_go,
      finishSurface, vmTwoVoxels, atoms1, gridOf, addAt, List.enum,
      List.enumFrom, alookup, List.replicate, List.set]
  · norm_num [sum_bader_densities, sum_densities, sum_densities_go,
      finishSurface, vmTwoVoxels, atoms1, gridOf, addAt, chunksOf,
      minInf, List.enum, List.enumFrom, alookup, List.replicate, List.set]

/-- Three voxels, all interior to basin 0, with voxel volume 1. -/
def vmThreeVoxels : VoxelMap :=
  { grid := gridOf ⟨3, 1, 1⟩ 1
    voxel_map := [0, 0, 0]
    weight_map := []
    maxima_map := [(0, 0)] }

/-- C5 (failing input): three voxels with densities `[0, 0, 7]` and two
threads give `chunk_size = 2`, so the final chunk `[voxel 2]` has length
1 and `sum_densities` computes `p = 1 * chunk.len() + 0 = 1` for it
instead of the global index 2; the charge of voxel 2 is read from voxel
1 and the total charge comes out 0 instead of 7 (volume 1 isolates the
indexing from the scaling defect). -/
theorem sum_densities_chunk_index_mismatch :
    sum_bader_densities [[0, 0, 7]] vmThreeVoxels atoms1 [(0, 0)] 1 id =
      some ([[7]], [3], [0]) ∧
    sum_bader_densities [[0, 0, 7]] vmThreeVoxels atoms1 [(0, 0)] 2 id =
      some ([[0]], [3], [0]) ∧
    ([[7]] : List (List ℚ)) ≠ [[0]] := by
  refine ⟨?_, ?_, by norm_num⟩
  · norm_num [sum_bader_densities, sum_densities, sum_densities_go,
      finishSurface, vmThreeVoxels, atoms1, gridOf, addAt, List.enum,
      List.enumFrom, alookup, List.replicate, List.set]
  · norm_num [sum_bader_densities, sum_densities, sum_densities_go,
      finishSurface, vmThreeVoxels, atoms1, gridOf, addAt, chunksOf,
      minInf, List.enum, List.enumFrom, alookup, List.replicate, List.set]

end Bader

namespace Bader

/-- The running minimum after the shift loop is no larger than the
incoming minimum and than every squared distance examined. -/
theorem shiftFold_min (q : Q3) (i : ℕ) (a : Q3) :
    ∀ (shifts : List Q3) (acc : ℕ × Option ℚ) (v : ℚ),
      (shiftFold q i a shifts acc).2 = some v →
      (∀ w, acc.2 = some w → v ≤ w) ∧
      (∀ s ∈ shifts, v ≤ sqDist q (add3 a s)) := by
  intro shifts
  induction shifts with
  | nil =>
    intro acc v h
    refine ⟨fun w hw => ?_, by simp⟩
    simp only [shiftFold, List.foldl_nil] at h
    rw [hw] at h
    exact le_of_eq (Option.some_injective _ h).symm
  | cons s rest ih =>
    intro acc v h
    simp only [shiftFold, List.foldl_cons] at h
    by_cases hlt : ltInf (sqDist q (add3 a s)) acc.2 = true
    · rw [if_pos hlt] at h
      have := ih (i, some (sqDist q (add3 a s))) v h
      rcases this with ⟨h1, h2⟩
      have hvd : v ≤ sqDist q (add3 a s) := h1 _ rfl
      refine ⟨fun w hw => ?_, ?_⟩
      · have : sqDist q (add3 a s) < w := by
          simpa [ltInf, hw] using hlt
        exact le_of_lt (lt_of_le_of_lt hvd this)
      · intro s' hs'
        rcases List.mem_cons.mp hs' with rfl | hmem
        · exact hvd
        · exact h2 s' hmem
    · rw [if_neg hlt] at h
      obtain ⟨h1, h2⟩ := ih acc v h
      have hle : v ≤ sqDist q (add3 a s) := by
        rcases hacc : acc.2 with _ | w₀
        · exact absurd (by simp [ltInf, hacc]) hlt
        · have hwd : w₀ ≤ sqDist q (add3 a s) := by
            by_contra hc
            exact hlt (by simp [ltInf, hacc, not_le.mp hc])
          exact le_trans (h1 w₀ hacc) hwd
      refine ⟨h1, fun s' hs' => ?_⟩
      rcases List.mem_cons.mp hs' with rfl | hmem
      · exact hle
      · exact h2 s' hmem

/-- The shift loop either leaves the accumulator unchanged or records the
atom index `i` with one of the examined squared distances. -/
theorem shiftFold_attain (q : Q3) (i : ℕ) (a : Q3) :
    ∀ (shifts : List Q3) (acc : ℕ × Option ℚ),
      shiftFold q i a shifts acc = acc ∨
      ∃ s ∈ shifts, shiftFold q i a shifts acc =
        (i, some (sqDist q (add3 a s))) := by
  intro shifts
  induction shifts with
  | nil => intro acc; left; rfl
  | cons s rest ih =>
    intro acc
    simp only [shiftFold, List.foldl_cons]
    by_cases hlt : ltInf (sqDist q (add3 a s)) acc.2 = true
    · rw [if_pos hlt]
      rcases ih (i, some (sqDist q (add3 a s))) with h | ⟨s', hs', h⟩
      · right
        exact ⟨s, List.mem_cons_self s rest, h⟩
      · right
        exact ⟨s', List.mem_cons_of_mem s hs', h⟩
    · rw [if_neg hlt]
      rcases ih acc with h | ⟨s', hs', h⟩
      · left; exact h
      · right; exact ⟨s', List.mem_cons_of_mem s hs', h⟩

/-- A finite running minimum stays finite through the shift loop. -/
theorem shiftFold_isSome_of_isSome (q : Q3) (i : ℕ) (a : Q3)
    (shifts : List Q3) (acc : ℕ × Option ℚ) (hacc : acc.2.isSome = true) :
    (shiftFold q i a shifts acc).2.isSome = true := by
  rcases shiftFold_attain q i a shifts acc with he | ⟨s, _, he⟩
  · rw [he]; exact hacc
  · rw [he]; rfl

/-- With a nonempty shift list the shift loop always yields a finite
minimum. -/
theorem shiftFold_isSome (q : Q3) (i : ℕ) (a : Q3) (shifts : List Q3)
    (acc : ℕ × Option ℚ) (h : shifts ≠ [] ∨ acc.2.isSome = true) :
    (shiftFold q i a shifts acc).2.isSome = true := by
  rcases h with hs | hacc
  · cases shifts with
    | nil => exact absurd rfl hs
    | cons s rest =>
      simp only [shiftFold, List.foldl_cons]
      by_cases hlt : ltInf (sqDist q (add3 a s)) acc.2 = true
      · rw [if_pos hlt]
        exact shiftFold_isSome_of_isSome q i a rest _ (by simp)
      · rw [if_neg hlt]
        refine shiftFold_isSome_of_isSome q i a rest acc ?_
        rcases hacc : acc.2 with _ | w₀
        · exact absurd (by simp [ltInf, hacc]) hlt
        · simp [hacc]
  · exact shiftFold_isSome_of_isSome q i a shifts acc hacc

end Bader

namespace Bader

/-- The enumerated atom fold of `argminAtom`: the resulting minimum is no
larger than the incoming one and than every examined squared distance. -/
theorem atomFold_min (q : Q3) (shifts : List Q3) :
    ∀ (l : List (ℕ × Q3)) (acc : ℕ × Option ℚ) (v : ℚ),
      ((l.foldl (fun acc ia => shiftFold q ia.1 ia.2 shifts acc) acc).2 =
        some v) →
      (∀ w, acc.2 = some w → v ≤ w) ∧
      (∀ ia ∈ l, ∀ s ∈ shifts, v ≤ sqDist q (add3 ia.2 s)) := by
  intro l
  induction l with
  | nil =>
    intro acc v h
    simp only [List.foldl_nil] at h
    refine ⟨fun w hw => ?_, by simp⟩
    rw [hw] at h
    exact le_of_eq (Option.some_injective _ h).symm
  | cons ia rest ih =>
    intro acc v h
    simp only [List.foldl_cons] at h
    obtain ⟨h1, h2⟩ := ih (shiftFold q ia.1 ia.2 shifts acc) v h
    have hstep := shiftFold_min q ia.1 ia.2 shifts acc
    constructor
    · intro w hw
      rcases hr : (shiftFold q ia.1 ia.2 shifts acc).2 with _ | u
      · rcases shiftFold_attain q ia.1 ia.2 shifts acc with he | ⟨s, _, he⟩
        · rw [he] at hr
          rw [hr] at hw
          cases hw
        · rw [he] at hr
          cases hr
      · exact le_trans (h1 u hr) ((hstep u hr).1 w hw)
    · intro ia' hia' s hs
      rcases List.mem_cons.mp hia' with rfl | hmem
      · rcases hr : (shiftFold q ia'.1 ia'.2 shifts acc).2 with _ | u
        · have := shiftFold_isSome_of_isSome q ia'.1 ia'.2 shifts acc
          rcases shiftFold_attain q ia'.1 ia'.2 shifts acc with he | ⟨s', _, he⟩
          · have hss : shifts = [] := by
              by_contra hne
              have := shiftFold_isSome q ia'.1 ia'.2 shifts acc (Or.inl hne)
              rw [hr] at this
              cases this
            rw [hss] at hs
            cases hs
          · rw [he] at hr
            cases hr
        · exact le_trans (h1 u hr) ((hstep u hr).2 s hs)
      · exact h2 ia' hmem s hs

/-- The enumerated atom fold either keeps the accumulator or returns one
of the enumerated indices together with one of its examined squared
distances. -/
theorem atomFold_attain (q : Q3) (shifts : List Q3) :
    ∀ (l : List (ℕ × Q3)) (acc : ℕ × Option ℚ),
      (l.foldl (fun acc ia => shiftFold q ia.1 ia.2 shifts acc) acc) = acc ∨
      ∃ ia ∈ l, ∃ s ∈ shifts,
        (l.foldl (fun acc ia => shiftFold q ia.1 ia.2 shifts acc) acc) =
          (ia.1, some (sqDist q (add3 ia.2 s))) := by
  intro l
  induction l with
  | nil => intro acc; left; rfl
  | cons ia rest ih =>
    intro acc
    simp only [List.foldl_cons]
    rcases ih (shiftFold q ia.1 ia.2 shifts acc) with he | ⟨ia', hia', s', hs', he⟩
    · rw [he]
      rcases shiftFold_attain q ia.1 ia.2 shifts acc with hf | ⟨s, hs, hf⟩
      · left; exact hf
      · right; exact ⟨ia, List.mem_cons_self ia rest, s, hs, hf⟩
    · right
      exact ⟨ia', List.mem_cons_of_mem ia hia', s', hs', he⟩

/-- A finite running minimum stays finite through the atom fold. -/
theorem atomFold_isSome_of_isSome (q : Q3) (shifts : List Q3)
    (l : List (ℕ × Q3)) (acc : ℕ × Option ℚ) (hacc : acc.2.isSome = true) :
    ((l.foldl (fun acc ia => shiftFold q ia.1 ia.2 shifts acc) acc).2.isSome
      = true) := by
  rcases atomFold_attain q shifts l acc with he | ⟨ia, _, s, _, he⟩
  · rw [he]; exact hacc
  · rw [he]; rfl

/-- With nonempty atoms and shifts the atom fold yields a finite
minimum. -/
theorem atomFold_isSome (q : Q3) (shifts : List Q3) (l : List (ℕ × Q3))
    (acc : ℕ × Option ℚ) (hl : l ≠ []) (hs : shifts ≠ []) :
    ((l.foldl (fun acc ia => shiftFold q ia.1 ia.2 shifts acc) acc).2.isSome
      = true) := by
  cases l with
  | nil => exact absurd rfl hl
  | cons ia rest =>
    simp only [List.foldl_cons]
    exact atomFold_isSome_of_isSome q shifts rest _
      (shiftFold_isSome q ia.1 ia.2 shifts acc (Or.inl hs))

end Bader

namespace Bader

/-- Unfolding of `argminAtom` as the enumerated fold. -/
theorem argminAtom_def (q : Q3) (positions shifts : List Q3) :
    argminAtom q positions shifts =
      positions.enum.foldl (fun acc ia => shiftFold q ia.1 ia.2 shifts acc)
        (0, none) := rfl

/-- The minimum found by `argminAtom` is no larger than the squared
distance from `q` to any atom image. -/
theorem argminAtom_min (q : Q3) (positions shifts : List Q3) (v : ℚ)
    (h : (argminAtom q positions shifts).2 = some v) :
    ∀ (i : ℕ) (a : Q3), positions[i]? = some a →
      ∀ s ∈ shifts, v ≤ sqDist q (add3 a s) := by
  rw [argminAtom_def] at h
  intro i a hia s hs
  exact (atomFold_min q shifts positions.enum (0, none) v h).2 (i, a)
    (List.mem_enum_iff_getElem?.mpr hia) s hs

/-- With nonempty atoms and shifts, `argminAtom` returns an in-range atom
index whose squared distance to one of its images is the minimum. -/
theorem argminAtom_attain (q : Q3) (positions shifts : List Q3)
    (hP : positions ≠ []) (hS : shifts ≠ []) :
    ∃ (i : ℕ) (D : ℚ) (a : Q3),
      argminAtom q positions shifts = (i, some D) ∧
      positions[i]? = some a ∧
      ∃ s ∈ shifts, D = sqDist q (add3 a s) := by
  have henum : positions.enum ≠ [] := by
    intro hcon
    have := congrArg List.length hcon
    simp only [List.enum_length, List.length_nil] at this
    exact hP (List.length_eq_zero.mp this)
  have hsome := atomFold_isSome q shifts positions.enum (0, none) henum hS
  rcases atomFold_attain q shifts positions.enum (0, none) with he | he
  · rw [he] at hsome
    cases hsome
  · obtain ⟨ia, hmem, s, hs, he⟩ := he
    refine ⟨ia.1, sqDist q (add3 ia.2 s), ia.2, ?_, ?_, s, hs, rfl⟩
    · rw [argminAtom_def, he]
    · exact List.mem_enum_iff_getElem?.mp hmem

/-- C6: for every maximum and nonempty atom list, `assign_maxima` with
one thread delegates to `maxima_to_atom`, which converts the maximum
through the Cartesian → LLL-fractional → `rem_euclid(1)` wrap →
LLL-Cartesian pipeline (`toLLLCartesian`) and returns, per maximum, the
index of an atom attaining the minimum squared distance over all image
shifts together with the square root (`sq`) of that minimum. -/
theorem assign_maxima_nearest_atom (maxima : List Int) (atoms : Atoms)
    (grid : Grid) (sq : ℚ → ℚ)
    (hpos : atoms.reduced_positions ≠ [])
    (hsh : atoms.reduced_lattice.cartesian_shift_matrix ≠ []) :
    assign_maxima maxima atoms grid 1 sq = maxima_to_atom maxima atoms grid sq ∧
    ∀ (j : ℕ) (m : Int), maxima[j]? = some m →
      ∃ (i : ℕ) (D : ℚ),
        (maxima_to_atom maxima atoms grid sq).1[j]? = some i ∧
        (maxima_to_atom maxima atoms grid sq).2[j]? = some (some (sq D)) ∧
        (∃ a, atoms.reduced_positions[i]? = some a ∧
          ∃ s ∈ atoms.reduced_lattice.cartesian_shift_matrix,
            D = sqDist (toLLLCartesian grid atoms.reduced_lattice m) (add3 a s)) ∧
        (∀ (i' : ℕ) (a' : Q3), atoms.reduced_positions[i']? = some a' →
          ∀ s' ∈ atoms.reduced_lattice.cartesian_shift_matrix,
            D ≤ sqDist (toLLLCartesian grid atoms.reduced_lattice m) (add3 a' s')) := by
  constructor
  · simp [assign_maxima]
  · intro j m hj
    obtain ⟨i, D, a, hr, hia, s, hs, hD⟩ :=
      argminAtom_attain (toLLLCartesian grid atoms.reduced_lattice m)
        atoms.reduced_positions atoms.reduced_lattice.cartesian_shift_matrix
        hpos hsh
    refine ⟨i, D, ?_, ?_, ⟨a, hia, s, hs, hD⟩, ?_⟩
    · simp [maxima_to_atom, List.getElem?_map, hj, hr]
    · simp [maxima_to_atom, List.getElem?_map, hj, hr]
    · intro i' a' hia' s' hs'
      exact argminAtom_min (toLLLCartesian grid atoms.reduced_lattice m)
        atoms.reduced_positions atoms.reduced_lattice.cartesian_shift_matrix D
        (by rw [hr]) i' a' hia' s' hs'

/-- Witness for C6 on a one-atom, one-maximum configuration. -/
theorem assign_maxima_nearest_atom_witness :
    atoms1.reduced_positions ≠ [] ∧
    atoms1.reduced_lattice.cartesian_shift_matrix ≠ [] ∧
    (assign_maxima [0] atoms1 (gridOf ⟨1, 1, 1⟩ 1) 1 id =
       maxima_to_atom [0] atoms1 (gridOf ⟨1, 1, 1⟩ 1) id ∧
     ∀ (j : ℕ) (m : Int), ([0] : List Int)[j]? = some m →
      ∃ (i : ℕ) (D : ℚ),
        (maxima_to_atom [0] atoms1 (gridOf ⟨1, 1, 1⟩ 1) id).1[j]? = some i ∧
        (maxima_to_atom [0] atoms1 (gridOf ⟨1, 1, 1⟩ 1) id).2[j]? =
          some (some (id D)) ∧
        (∃ a, atoms1.reduced_positions[i]? = some a ∧
          ∃ s ∈ atoms1.reduced_lattice.cartesian_shift_matrix,
            D = sqDist (toLLLCartesian (gridOf ⟨1, 1, 1⟩ 1)
              atoms1.reduced_lattice m) (add3 a s)) ∧
        (∀ (i' : ℕ) (a' : Q3), atoms1.reduced_positions[i']? = some a' →
          ∀ s' ∈ atoms1.reduced_lattice.cartesian_shift_matrix,
            D ≤ sqDist (toLLLCartesian (gridOf ⟨1, 1, 1⟩ 1)
              atoms1.reduced_lattice m) (add3 a' s'))) :=
  ⟨by simp [atoms1], by simp [atoms1],
   assign_maxima_nearest_atom [0] atoms1 (gridOf ⟨1, 1, 1⟩ 1) id
     (by simp [atoms1]) (by simp [atoms1])⟩

end Bader

namespace Bader

/-- C10: `charge_sum` is not atomic on error — whenever it returns the
`NotMaxima` error, `bader_charge`, `bader_volume` and `surface_distance`
are exactly the input's (they are written only after a full scan), while
the vacuum accumulators keep whatever the partial scan put there. -/
theorem charge_sum_error_nonatomic (a : Analysis) (atoms : Atoms)
    (densities : List (List ℚ)) (voxel_map : VoxelMap) (sq : ℚ → ℚ)
    (h : (charge_sum a atoms densities voxel_map sq).2 =
      some AnalysisError.NotMaxima) :
    (charge_sum a atoms densities voxel_map sq).1.bader_charge =
      a.bader_charge ∧
    (charge_sum a atoms densities voxel_map sq).1.bader_volume =
      a.bader_volume ∧
    (charge_sum a atoms densities voxel_map sq).1.surface_distance =
      a.surface_distance := by
  simp only [charge_sum] at h ⊢
  split at h
  · simp
  · simp at h

end Bader

namespace Bader

/-- Reduction of an `Except` bind on a success value. -/
theorem exceptBind_ok (x : α) (f : α → Except ε β) :
    (Except.ok x >>= f) = f x := rfl

/-- Reduction of an `Except` bind on an error value. -/
theorem exceptBind_error (e : ε) (f : α → Except ε β) :
    ((Except.error e : Except ε α) >>= f) = Except.error e := rfl

/-- Reduction of an `Except` bind on a `pure` value. -/
theorem exceptBind_pure (x : α) (f : α → Except ε β) :
    ((pure x : Except ε α) >>= f) = f x := rfl

/-- An empty analysis over one density, as `Analysis::new` produces for a
voxel map without maxima. -/
def analysis0 : Analysis :=
  { assigned_atom := []
    minimum_distance := []
    surface_distance := []
    bader_maxima := []
    bader_charge := [[]]
    bader_volume := []
    atoms_charge := [[0]]
    atoms_volume := [0]
    vacuum_charge := [0]
    vacuum_volume := 0
    total_charge := [0] }

/-- A two-voxel map whose first voxel is vacuum and whose second claims a
maximum that is not in any maxima list. -/
def vmNotMaxima : VoxelMap :=
  { grid := gridOf ⟨2, 1, 1⟩ 1
    voxel_map := [-1, 5]
    weight_map := []
    maxima_map := [] }

/-- Witness for C10: the scan errors with `NotMaxima` at voxel 1 after
having accumulated voxel 0 into the vacuum charge, so the returned state
has `vacuum_charge = [3]` in place of the initial `[0]` while the bader
fields are untouched. -/
theorem charge_sum_error_nonatomic_witness :
    (charge_sum analysis0 atoms1 [[3, 1]] vmNotMaxima id).2 =
      some AnalysisError.NotMaxima ∧
    ((charge_sum analysis0 atoms1 [[3, 1]] vmNotMaxima id).1.bader_charge =
       analysis0.bader_charge ∧
     (charge_sum analysis0 atoms1 [[3, 1]] vmNotMaxima id).1.bader_volume =
       analysis0.bader_volume ∧
     (charge_sum analysis0 atoms1 [[3, 1]] vmNotMaxima id).1.surface_distance =
       analysis0.surface_distance) ∧
    (charge_sum analysis0 atoms1 [[3, 1]] vmNotMaxima id).1.vacuum_charge =
      [3] ∧
    analysis0.vacuum_charge = [0] ∧ ([3] : List ℚ) ≠ [0] := by
  have h : (charge_sum analysis0 atoms1 [[3, 1]] vmNotMaxima id).2 =
      some AnalysisError.NotMaxima := by
    norm_num [charge_sum, charge_sum_go, charge_sum_step, charge_sum_init,
      Analysis.index_get, Analysis.atom_get, VoxelMap.voxel_get,
      VoxelMap.maxima_get, VoxelMap.weight_get, GridSize.total, gridOf,
      vmNotMaxima, analysis0, addAt, List.findIdx?, exceptBind_ok,
      exceptBind_error, show List.range 2 = [0, 1] from rfl]
  refine ⟨h, charge_sum_error_nonatomic analysis0 atoms1 [[3, 1]]
    vmNotMaxima id h, ?_, rfl, by norm_num⟩
  norm_num [charge_sum, charge_sum_go, charge_sum_step, charge_sum_init,
    Analysis.index_get, Analysis.atom_get, VoxelMap.voxel_get,
    VoxelMap.maxima_get, VoxelMap.weight_get, GridSize.total, gridOf,
    vmNotMaxima, analysis0, addAt, List.findIdx?, exceptBind_ok,
    exceptBind_error, show List.range 2 = [0, 1] from rfl]

end Bader

namespace Bader

/-- An index found by `findIdx?` is in range. -/
theorem findIdx?_lt_length {l : List ℕ} {p : ℕ → Bool} {i : ℕ}
    (h : l.findIdx? p = some i) : i < l.length := by
  obtain ⟨hlt, -⟩ := List.findIdx?_eq_some_iff_getElem.mp h
  exact hlt

/-- `addAt` preserves length. -/
theorem length_addAt (l : List ℚ) (i : ℕ) (x : ℚ) :
    (addAt l i x).length = l.length := by
  simp [addAt]

/-- Accumulating at an in-range index adds to the vector sum. -/
theorem sum_addAt : ∀ (l : List ℚ) (i : ℕ), i < l.length →
    ∀ x : ℚ, (addAt l i x).sum = l.sum + x := by
  intro l
  induction l with
  | nil => intro i h; cases h
  | cons a t ih =>
    intro i h x
    cases i with
    | zero =>
      simp only [addAt, List.getD_eq_getElem?_getD, List.getElem?_cons_zero,
        Option.getD_some, List.set_cons_zero, List.sum_cons]
      ring
    | succ i =>
      have ht : i < t.length := by simpa using h
      have := ih i ht x
      simp only [addAt, List.getD_eq_getElem?_getD, List.getElem?_cons_succ,
        List.set_cons_succ, List.sum_cons] at this ⊢
      rw [this]
      ring

/-- Componentwise access to a `zipWith` of equal-length vectors. -/
theorem getD_zipWith {α β γ : Type} (f : α → β → γ) (l1 : List α)
    (l2 : List β) (d1 : α) (d2 : β) (d3 : γ) (j : ℕ) (hj : j < l2.length)
    (hl : l1.length = l2.length) :
    (List.zipWith f l1 l2).getD j d3 = f (l1.getD j d1) (l2.getD j d2) := by
  have h1 : j < l1.length := hl ▸ hj
  simp [List.getD_eq_getElem?_getD, List.getElem?_zipWith,
    List.getElem?_eq_getElem h1, List.getElem?_eq_getElem hj]

/-- Reading every position of a vector in order reproduces the vector. -/
theorem map_getD_range (l : List ℚ) :
    (List.range l.length).map (fun p => l.getD p 0) = l := by
  apply List.ext_getElem
  · simp
  · intro i h1 h2
    simp [List.getD_eq_getElem?_getD, List.getElem?_eq_getElem h2]

end Bader

namespace Bader

/-- The mixture loop of `charge_sum` succeeds whenever every decoded
maximum resolves in `bader_maxima`, keeps the accumulator shape, and adds
exactly `(Σ decoded weights) · charge[p]` to each per-density row sum. -/
theorem charge_sum_weights_ok (a : Analysis) (densities : List (List ℚ))
    (p atom_num : ℕ) :
    ∀ (ws : List ℚ) (st : List (List ℚ) × List ℚ × Bool),
      (∀ w ∈ ws, ∃ i, a.bader_maxima.findIdx? (· = decode_maxima w) = some i) →
      st.1.length = densities.length →
      (∀ j, j < st.1.length →
        (st.1.getD j []).length = a.bader_maxima.length) →
      ∃ r, charge_sum_weights a densities p atom_num ws st = .ok r ∧
        r.1.length = densities.length ∧
        (∀ j, j < r.1.length →
          (r.1.getD j []).length = a.bader_maxima.length) ∧
        (∀ j, j < densities.length →
          (r.1.getD j []).sum = (st.1.getD j []).sum +
            (ws.map decode_weight).sum * ((densities.getD j []).getD p 0)) := by
  intro ws
  induction ws with
  | nil =>
    intro st _ hlen hrow
    refine ⟨st, rfl, hlen, hrow, ?_⟩
    intro j hj
    simp
  | cons w rest ih =>
    intro st hres hlen hrow
    obtain ⟨i, hi⟩ := hres w (List.mem_cons_self w rest)
    have hilt : i < a.bader_maxima.length := findIdx?_lt_length hi
    set st' : List (List ℚ) × List ℚ × Bool :=
      (st.1.zipWith (fun row d => addAt row i
          (decode_weight w * d.getD p 0)) densities,
        addAt st.2.1 i (decode_weight w),
        st.2.2 || decide (atom_num ≠ a.assigned_atom.getD i 0)) with hst'
    have hlen' : st'.1.length = densities.length := by
      simp [hst', List.length_zipWith, hlen]
    have hrow' : ∀ j, j < st'.1.length →
        (st'.1.getD j []).length = a.bader_maxima.length := by
      intro j hj
      rw [hlen'] at hj
      rw [hst']
      simp only
      rw [getD_zipWith _ st.1 densities [] [] [] j hj hlen]
      rw [length_addAt]
      exact hrow j (by rw [hlen]; exact hj)
    obtain ⟨r, hr, hrl, hrr, hrs⟩ := ih st'
      (fun w' hw' => hres w' (List.mem_cons_of_mem w hw')) hlen' hrow'
    refine ⟨r, ?_, hrl, hrr, ?_⟩
    · simp only [charge_sum_weights, Analysis.atom_get, Analysis.index_get,
        hi, exceptBind_ok]
      exact hr
    · intro j hj
      have hstep : (st'.1.getD j []).sum = (st.1.getD j []).sum +
          decode_weight w * ((densities.getD j []).getD p 0) := by
        rw [hst']
        simp only
        rw [getD_zipWith _ st.1 densities [] [] [] j hj hlen]
        exact sum_addAt (st.1.getD j []) i
          (by rw [hrow j (by rw [hlen]; exact hj)]; exact hilt) _
      rw [hrs j hj, hstep]
      simp only [List.map_cons, List.sum_cons]
      ring

end Bader

namespace Bader

/-- Well-formedness of voxel `p` for an analysis `a`: every maximum the
analysis pass will look up resolves in `bader_maxima`, and mixture
weights sum to one. -/
def resolvedVoxel (a : Analysis) (vm : VoxelMap) (p : ℕ) : Prop :=
  match vm.voxel_get p with
  | .Weight ws => (ws.map decode_weight).sum = 1 ∧
      ∀ w ∈ ws, ∃ i, a.bader_maxima.findIdx? (· = decode_maxima w) = some i
  | .Maxima m => ∃ i, a.bader_maxima.findIdx? (· = m) = some i
  | .Vacuum => True

/-- One `charge_sum` step on a well-formed voxel succeeds, keeps the
accumulator shape, and adds `volume · charge[p]` to every per-density
total `volume · Σ bader_charge + vacuum_charge`. -/
theorem charge_sum_step_ok (a : Analysis) (atoms : Atoms)
    (densities : List (List ℚ)) (voxel_map : VoxelMap) (p : ℕ)
    (acc : ChargeAcc) (hwf : resolvedVoxel a voxel_map p)
    (hlen : acc.bader_charge.length = densities.length)
    (hrow : ∀ j, j < acc.bader_charge.length →
      (acc.bader_charge.getD j []).length = a.bader_maxima.length)
    (hvlen : acc.vacuum_charge.length = densities.length) :
    ∃ acc', charge_sum_step a atoms densities voxel_map p acc = .ok acc' ∧
      acc'.bader_charge.length = densities.length ∧
      (∀ j, j < acc'.bader_charge.length →
        (acc'.bader_charge.getD j []).length = a.bader_maxima.length) ∧
      acc'.vacuum_charge.length = densities.length ∧
      ∀ j, j < densities.length →
        voxel_map.grid.voxel_lattice.volume *
            (acc'.bader_charge.getD j []).sum +
          acc'.vacuum_charge.getD j 0 =
        voxel_map.grid.voxel_lattice.volume *
            (acc.bader_charge.getD j []).sum +
          acc.vacuum_charge.getD j 0 +
          voxel_map.grid.voxel_lattice.volume *
            ((densities.getD j []).getD p 0) := by
  unfold resolvedVoxel at hwf
  cases hv : voxel_map.voxel_get p with
  | Vacuum =>
    have hstep : charge_sum_step a atoms densities voxel_map p acc =
        .ok { acc with
          vacuum_volume := acc.vacuum_volume +
            voxel_map.grid.voxel_lattice.volume
          vacuum_charge := acc.vacuum_charge.zipWith
            (fun v d => v + voxel_map.grid.voxel_lattice.volume * d.getD p 0)
            densities } := by
      simp only [charge_sum_step, hv]
    refine ⟨_, hstep, ?_, ?_, ?_, ?_⟩
    · exact hlen
    · exact hrow
    · simp [List.length_zipWith, hvlen]
    · intro j hj
      simp only
      rw [getD_zipWith _ acc.vacuum_charge densities 0 [] 0 j hj hvlen]
      ring
  | Maxima m =>
    rw [hv] at hwf
    obtain ⟨i, hi⟩ := hwf
    have hilt : i < a.bader_maxima.length := findIdx?_lt_length hi
    have hstep : charge_sum_step a atoms densities voxel_map p acc =
        .ok { acc with
          bader_volume := addAt acc.bader_volume i 1
          bader_charge := acc.bader_charge.zipWith
            (fun row d => addAt row i (d.getD p 0)) densities } := by
      simp only [charge_sum_step, hv, Analysis.index_get, hi, exceptBind_ok]
    refine ⟨_, hstep, ?_, ?_, ?_, ?_⟩
    · simp [List.length_zipWith, hlen]
    · intro j hj
      simp only [List.length_zipWith, hlen, min_self] at hj
      simp only
      rw [getD_zipWith _ acc.bader_charge densities [] [] [] j hj hlen]
      rw [length_addAt]
      exact hrow j (by rw [hlen]; exact hj)
    · exact hvlen
    · intro j hj
      simp only
      rw [getD_zipWith _ acc.bader_charge densities [] [] [] j hj hlen]
      rw [sum_addAt (acc.bader_charge.getD j []) i
        (by rw [hrow j (by rw [hlen]; exact hj)]; exact hilt) _]
      ring
  | Weight ws =>
    rw [hv] at hwf
    obtain ⟨hsum, hres⟩ := hwf
    have hne : ws ≠ [] := by
      intro hcon
      rw [hcon] at hsum
      simp at hsum
    obtain ⟨i0, hi0⟩ := hres (ws.headD 0) (by
      cases ws with
      | nil => exact absurd rfl hne
      | cons w rest => exact List.mem_cons_self w rest)
    obtain ⟨r, hr, hrl, hrr, hrs⟩ := charge_sum_weights_ok a densities p
      (a.assigned_atom.getD i0 0) ws (acc.bader_charge, acc.bader_volume, false)
      hres hlen hrow
    have hstep : charge_sum_step a atoms densities voxel_map p acc =
        (if r.2.2 then
          Except.ok { acc with
            bader_charge := r.1
            bader_volume := r.2.1
            minimum_distance := acc.minimum_distance.set
              (a.assigned_atom.getD i0 0)
              (minShiftSq atoms.reduced_lattice
                (toLLLCartesian voxel_map.grid atoms.reduced_lattice p)
                (atoms.reduced_positions.getD (a.assigned_atom.getD i0 0)
                  (0, 0, 0))
                (acc.minimum_distance.getD (a.assigned_atom.getD i0 0) none)) }
        else Except.ok { acc with bader_charge := r.1, bader_volume := r.2.1 }) := by
      simp only [charge_sum_step, hv, Analysis.atom_get, Analysis.index_get,
        hi0, exceptBind_ok, exceptBind_pure, hr]
    cases hcond : r.2.2 with
    | true =>
      rw [hcond, if_pos rfl] at hstep
      refine ⟨_, hstep, hrl, hrr, hvlen, ?_⟩
      intro j hj
      simp only
      rw [hrs j hj, hsum]
      ring
    | false =>
      rw [hcond, if_neg (by simp)] at hstep
      refine ⟨_, hstep, hrl, hrr, hvlen, ?_⟩
      intro j hj
      simp only
      rw [hrs j hj, hsum]
      ring

end Bader

namespace Bader

/-- The `charge_sum` scan over well-formed voxels never errors and adds
`volume · Σ_p charge[p]` to every per-density total
`volume · Σ bader_charge + vacuum_charge`. -/
theorem charge_sum_go_ok (a : Analysis) (atoms : Atoms)
    (densities : List (List ℚ)) (voxel_map : VoxelMap) :
    ∀ (ps : List ℕ) (acc : ChargeAcc),
      (∀ p ∈ ps, resolvedVoxel a voxel_map p) →
      acc.bader_charge.length = densities.length →
      (∀ j, j < acc.bader_charge.length →
        (acc.bader_charge.getD j []).length = a.bader_maxima.length) →
      acc.vacuum_charge.length = densities.length →
      (charge_sum_go a atoms densities voxel_map ps acc).2 = none ∧
      (charge_sum_go a atoms densities voxel_map ps acc).1.bader_charge.length
        = densities.length ∧
      (charge_sum_go a atoms densities voxel_map ps acc).1.vacuum_charge.length
        = densities.length ∧
      ∀ j, j < densities.length →
        voxel_map.grid.voxel_lattice.volume *
            ((charge_sum_go a atoms densities voxel_map ps acc).1.bader_charge.getD j []).sum +
          (charge_sum_go a atoms densities voxel_map ps acc).1.vacuum_charge.getD j 0 =
        voxel_map.grid.voxel_lattice.volume *
            (acc.bader_charge.getD j []).sum +
          acc.vacuum_charge.getD j 0 +
          voxel_map.grid.voxel_lattice.volume *
            ((ps.map (fun p => (densities.getD j []).getD p 0)).sum) := by
  intro ps
  induction ps with
  | nil =>
    intro acc _ hlen hrow hvlen
    refine ⟨rfl, hlen, hvlen, ?_⟩
    intro j hj
    simp [charge_sum_go]
  | cons p rest ih =>
    intro acc hps hlen hrow hvlen
    obtain ⟨acc', hstep, hlen', hrow', hvlen', hsum'⟩ :=
      charge_sum_step_ok a atoms densities voxel_map p acc
        (hps p (List.mem_cons_self p rest)) hlen hrow hvlen
    have hgo : charge_sum_go a atoms densities voxel_map (p :: rest) acc =
        charge_sum_go a atoms densities voxel_map rest acc' := by
      simp only [charge_sum_go, hstep]
    obtain ⟨h1, h2, h3, h4⟩ := ih acc'
      (fun q hq => hps q (List.mem_cons_of_mem p hq)) hlen' hrow' hvlen'
    rw [hgo]
    refine ⟨h1, h2, h3, ?_⟩
    intro j hj
    rw [h4 j hj, hsum' j hj]
    simp only [List.map_cons, List.sum_cons]
    ring

/-- Local lemma: multiplying every entry multiplies the sum. -/
theorem sum_map_mul (l : List ℚ) (v : ℚ) :
    (l.map (fun x => x * v)).sum = l.sum * v := by
  induction l with
  | nil => simp
  | cons x t ih =>
    simp only [List.map_cons, List.sum_cons, ih]
    ring

/-- C2: after a `charge_sum` scan over well-formed voxels (all referenced
maxima resolve, mixture weights sum to one) starting from zero vacuum
accumulators, the per-density total `Σ_m bader_charge[d][m] +
vacuum_charge[d]` equals `volume · Σ_p ρ_d[p]` exactly — in particular
within the claimed 1e-8 relative error. -/
theorem charge_sum_conserves (a : Analysis) (atoms : Atoms)
    (densities : List (List ℚ)) (voxel_map : VoxelMap) (sq : ℚ → ℚ)
    (hwf : ∀ p ∈ List.range voxel_map.grid.size.total,
      resolvedVoxel a voxel_map p)
    (hvc : a.vacuum_charge = List.replicate densities.length 0)
    (hbc : a.bader_charge.length = densities.length)
    (hdl : ∀ d ∈ densities, d.length = voxel_map.grid.size.total) :
    (charge_sum a atoms densities voxel_map sq).2 = none ∧
    ∀ j, j < densities.length →
      ((charge_sum a atoms densities voxel_map sq).1.bader_charge.getD j []).sum +
        (charge_sum a atoms densities voxel_map sq).1.vacuum_charge.getD j 0 =
      voxel_map.grid.voxel_lattice.volume * (densities.getD j []).sum := by
  have hinit1 : (charge_sum_init a atoms).bader_charge.length =
      densities.length := by
    simp [charge_sum_init, hbc]
  have hinit2 : ∀ j, j < (charge_sum_init a atoms).bader_charge.length →
      ((charge_sum_init a atoms).bader_charge.getD j []).length =
        a.bader_maxima.length := by
    intro j hj
    simp only [charge_sum_init, List.length_replicate] at hj ⊢
    simp [List.getD_eq_getElem?_getD, List.getElem?_replicate, hj]
  have hinit3 : (charge_sum_init a atoms).vacuum_charge.length =
      densities.length := by
    simp [charge_sum_init, hvc]
  obtain ⟨h1, h2, h3, h4⟩ := charge_sum_go_ok a atoms densities voxel_map
    (List.range voxel_map.grid.size.total) (charge_sum_init a atoms)
    hwf hinit1 hinit2 hinit3
  cases hgo : charge_sum_go a atoms densities voxel_map
      (List.range voxel_map.grid.size.total) (charge_sum_init a atoms) with
  | mk accf e =>
    rw [hgo] at h1 h2 h3 h4
    simp only at h1 h2 h3 h4
    subst h1
    have hcs : charge_sum a atoms densities voxel_map sq =
        ({ a with
            vacuum_charge := accf.vacuum_charge
            vacuum_volume := accf.vacuum_volume
            bader_charge := accf.bader_charge.map
              (fun r => r.map (· * voxel_map.grid.voxel_lattice.volume))
            bader_volume := accf.bader_volume.map
              (· * voxel_map.grid.voxel_lattice.volume)
            surface_distance := accf.minimum_distance.map
              (fun d => match d with | some v => sq v | none => 0) }, none) := by
      simp only [charge_sum, hgo]
    rw [hcs]
    refine ⟨rfl, ?_⟩
    intro j hj
    have hjb : j < accf.bader_charge.length := by rw [h2]; exact hj
    have hrow : (accf.bader_charge.map
        (fun r => r.map (· * voxel_map.grid.voxel_lattice.volume))).getD j [] =
        (accf.bader_charge.getD j []).map
          (· * voxel_map.grid.voxel_lattice.volume) := by
      simp [List.getD_eq_getElem?_getD, List.getElem?_map,
        List.getElem?_eq_getElem hjb]
    simp only [hrow]
    rw [sum_map_mul]
    have := h4 j hj
    have hinitsum : ((charge_sum_init a atoms).bader_charge.getD j []).sum = 0 := by
      simp only [charge_sum_init]
      simp [List.getD_eq_getElem?_getD, List.getElem?_replicate,
        show j < a.bader_charge.length from hbc ▸ hj, List.sum_replicate]
    have hinitvc : (charge_sum_init a atoms).vacuum_charge.getD j 0 = 0 := by
      simp only [charge_sum_init]
      rw [hvc]
      simp [List.getD_eq_getElem?_getD, List.getElem?_replicate, hj]
    rw [hinitsum, hinitvc] at this
    have hd : (densities.getD j []).length = voxel_map.grid.size.total := by
      have heq : densities.getD j [] = densities[j] := by
        simp [List.getD_eq_getElem?_getD, List.getElem?_eq_getElem hj]
      rw [heq]
      exact hdl _ (List.getElem_mem hj)
    have hrange : ((List.range voxel_map.grid.size.total).map
        (fun p => (densities.getD j []).getD p 0)).sum =
        (densities.getD j []).sum := by
      rw [← hd, map_getD_range]
    rw [hrange] at this
    linear_combination this

end Bader

namespace Bader

/-- An analysis with two basins (maxima 0 and 2) both assigned to atom 0,
over one density, with zeroed vacuum accumulators. -/
def analysisW : Analysis :=
  { assigned_atom := [0, 0]
    minimum_distance := []
    surface_distance := []
    bader_maxima := [0, 2]
    bader_charge := [[]]
    bader_volume := []
    atoms_charge := [[0]]
    atoms_volume := [0]
    vacuum_charge := [0]
    vacuum_volume := 0
    total_charge := [0] }

/-- A three-voxel map with voxel volume 2: voxel 0 interior to basin 0,
voxel 1 an even mixture of basins 0 and 2, voxel 2 interior to basin 2. -/
def vmConserve : VoxelMap :=
  { grid := gridOf ⟨3, 1, 1⟩ 2
    voxel_map := [0, -2, 2]
    weight_map := [[1/2, 5/2]]
    maxima_map := [(0, 0), (2, 1)] }

/-- Witness for C2: on densities `[1, 2, 4]` with voxel volume 2 the scan
succeeds and `Σ_m bader_charge[0][m] + vacuum_charge[0] = 2 · 7 = 14`. -/
theorem charge_sum_conserves_witness :
    (∀ p ∈ List.range vmConserve.grid.size.total,
      resolvedVoxel analysisW vmConserve p) ∧
    analysisW.vacuum_charge = List.replicate [[(1 : ℚ), 2, 4]].length 0 ∧
    analysisW.bader_charge.length = [[(1 : ℚ), 2, 4]].length ∧
    (∀ d ∈ [[(1 : ℚ), 2, 4]], d.length = vmConserve.grid.size.total) ∧
    ((charge_sum analysisW atoms1 [[1, 2, 4]] vmConserve id).2 = none ∧
     ∀ j, j < [[(1 : ℚ), 2, 4]].length →
      ((charge_sum analysisW atoms1 [[1, 2, 4]] vmConserve id).1.bader_charge.getD j []).sum +
        (charge_sum analysisW atoms1 [[1, 2, 4]] vmConserve id).1.vacuum_charge.getD j 0 =
      vmConserve.grid.voxel_lattice.volume * ([[(1 : ℚ), 2, 4]].getD j []).sum) := by
  have hwf : ∀ p ∈ List.range vmConserve.grid.size.total,
      resolvedVoxel analysisW vmConserve p := by
    intro p hp
    have hlt : p < 3 := by
      simpa [vmConserve, gridOf, GridSize.total] using List.mem_range.mp hp
    interval_cases p <;>
      norm_num [resolvedVoxel, VoxelMap.voxel_get, VoxelMap.maxima_get,
        VoxelMap.weight_get, vmConserve, gridOf, analysisW, decode_maxima,
        decode_weight, List.findIdx?, show Int.toNat 2 = 2 from rfl,
        show Int.toNat (-2) = 0 from rfl]
  refine ⟨hwf, by simp [analysisW], by simp [analysisW], ?_, ?_⟩
  · intro d hd
    simp only [List.mem_singleton] at hd
    subst hd
    norm_num [vmConserve, gridOf, GridSize.total]
  · exact charge_sum_conserves analysisW atoms1 [[1, 2, 4]] vmConserve id hwf
      (by simp [analysisW]) (by simp [analysisW])
      (by
        intro d hd
        simp only [List.mem_singleton] at hd
        subst hd
        norm_num [vmConserve, gridOf, GridSize.total])

end Bader

namespace Bader

/-- An `add_entry` update adds its value to the total bucket mass. -/
theorem add_entry_sum (l : List (ℕ × ℚ)) (m : ℕ) (v : ℚ) :
    ((add_entry l m v).map (·.2)).sum = (l.map (·.2)).sum + v := by
  induction l with
  | nil => simp [add_entry]
  | cons e es ih =>
    by_cases h : e.1 = m
    · simp only [add_entry, if_pos h, List.map_cons, List.sum_cons]
      ring
    · simp only [add_entry, if_neg h, List.map_cons, List.sum_cons, ih]
      ring

/-- An `add_entry` update with a nonnegative value keeps every bucket
nonnegative. -/
theorem add_entry_nonneg (l : List (ℕ × ℚ)) (m : ℕ) (v : ℚ)
    (hl : ∀ e ∈ l, 0 ≤ e.2) (hv : 0 ≤ v) :
    ∀ e ∈ add_entry l m v, 0 ≤ e.2 := by
  induction l with
  | nil =>
    intro e he
    simp only [add_entry, List.mem_singleton] at he
    subst he
    exact hv
  | cons a es ih =>
    intro e he
    by_cases h : a.1 = m
    · simp only [add_entry, if_pos h, List.mem_cons] at he
      rcases he with rfl | he
      · exact add_nonneg (hl a (List.mem_cons_self a es)) hv
      · exact hl e (List.mem_cons_of_mem a he)
    · simp only [add_entry, if_neg h, List.mem_cons] at he
      rcases he with rfl | he
      · exact hl e (List.mem_cons_self e es)
      · exact ih (fun x hx => hl x (List.mem_cons_of_mem a hx)) e he

/-- A stored mixture list read through `weight_get` has nonnegative
decoded weights summing to at most one, provided every stored list
does. -/
theorem weight_get_wf (vm : VoxelMap)
    (hwm : ∀ l ∈ vm.weight_map, (∀ w ∈ l, 0 ≤ decode_weight w) ∧
      (l.map decode_weight).sum ≤ 1) (v : Int) :
    (∀ w ∈ vm.weight_get v, 0 ≤ decode_weight w) ∧
    ((vm.weight_get v).map decode_weight).sum ≤ 1 := by
  unfold VoxelMap.weight_get
  rw [List.getD_eq_getElem?_getD]
  cases h : vm.weight_map[((-v) - 2).toNat]? with
  | none => simp
  | some l =>
    simp only [Option.getD_some]
    exact hwm l (List.getElem?_mem h)

/-- Spreading a mixture's decoded weights over the buckets adds
`(Σ decoded weights) · rho` to the total bucket mass. -/
theorem mix_fold_sum (rho : ℚ) :
    ∀ (lw : List ℚ) (w0 : List (ℕ × ℚ)),
      (((lw.foldl (fun w mw =>
          add_entry w (decode_maxima mw) (decode_weight mw * rho)) w0).map
        (·.2)).sum) =
      (w0.map (·.2)).sum + (lw.map decode_weight).sum * rho := by
  intro lw
  induction lw with
  | nil => intro w0; simp
  | cons mw rest ih =>
    intro w0
    simp only [List.foldl_cons, List.map_cons, List.sum_cons]
    rw [ih, add_entry_sum]
    ring

/-- Spreading a mixture with nonnegative decoded weights keeps every
bucket nonnegative. -/
theorem mix_fold_nonneg (rho : ℚ) (hrho : 0 ≤ rho) :
    ∀ (lw : List ℚ), (∀ w ∈ lw, 0 ≤ decode_weight w) →
    ∀ (w0 : List (ℕ × ℚ)), (∀ e ∈ w0, 0 ≤ e.2) →
    ∀ e ∈ lw.foldl (fun w mw =>
        add_entry w (decode_maxima mw) (decode_weight mw * rho)) w0,
      0 ≤ e.2 := by
  intro lw
  induction lw with
  | nil =>
    intro _ w0 hw0
    simpa using hw0
  | cons mw rest ih =>
    intro hlw w0 hw0
    simp only [List.foldl_cons]
    exact ih (fun x hx => hlw x (List.mem_cons_of_mem mw hx)) _
      (add_entry_nonneg w0 _ _ hw0
        (mul_nonneg (hlw mw (List.mem_cons_self mw rest)) hrho))

/-- The scan invariant: every bucket is nonnegative and the total bucket
mass never exceeds the accumulated upward flux `t_sum`. -/
theorem weight_step_scan_invariant (p : Int) (density : List ℚ)
    (vm : VoxelMap)
    (halpha : ∀ al ∈ vm.grid.voronoi.alphas, 0 ≤ al)
    (hwm : ∀ l ∈ vm.weight_map, (∀ w ∈ l, 0 ≤ decode_weight w) ∧
      (l.map decode_weight).sum ≤ 1) :
    (∀ mw ∈ (weight_step_scan p density vm).1, 0 ≤ mw.2) ∧
    ((weight_step_scan p density vm).1.map (·.2)).sum ≤
      (weight_step_scan p density vm).2 := by
  have hzip : ∀ sa ∈ vm.grid.voronoi.vectors.zip vm.grid.voronoi.alphas,
      0 ≤ sa.2 := by
    intro sa hsa
    exact halpha sa.2 (List.of_mem_zip hsa).2
  have main : ∀ (l : List ((Int × Int × Int) × ℚ)),
      (∀ sa ∈ l, 0 ≤ sa.2) →
      ∀ (st : List (ℕ × ℚ) × ℚ),
        (∀ mw ∈ st.1, 0 ≤ mw.2) → (st.1.map (·.2)).sum ≤ st.2 →
        (∀ mw ∈ (l.foldl (weight_step_scan_step p density vm) st).1,
          0 ≤ mw.2) ∧
        ((l.foldl (weight_step_scan_step p density vm) st).1.map (·.2)).sum ≤
          (l.foldl (weight_step_scan_step p density vm) st).2 := by
    intro l
    induction l with
    | nil => intro _ st h1 h2; exact ⟨h1, h2⟩
    | cons sa rest ih =>
      intro hsa st h1 h2
      simp only [List.foldl_cons]
      have hsa2 : 0 ≤ sa.2 := hsa sa (List.mem_cons_self sa rest)
      have hrest : ∀ x ∈ rest, 0 ≤ x.2 :=
        fun x hx => hsa x (List.mem_cons_of_mem sa hx)
      refine ih hrest (weight_step_scan_step p density vm st sa) ?_ ?_
      all_goals {
        unfold weight_step_scan_step
        by_cases hcd : 0 < density.getD (vm.grid.voronoi_shift p sa.1).toNat 0
          - density.getD p.toNat 0
        case pos =>
          rw [if_pos hcd]
          have hrho : 0 ≤ (density.getD (vm.grid.voronoi_shift p sa.1).toNat 0
              - density.getD p.toNat 0) * sa.2 := mul_nonneg (le_of_lt hcd) hsa2
          by_cases hm1 : vm.maxima_get (vm.grid.voronoi_shift p sa.1) < -1
          case pos =>
            simp only [if_pos hm1]
            first
            | exact mix_fold_nonneg _ hrho _
                (weight_get_wf vm hwm _).1 st.1 h1
            | {
                rw [mix_fold_sum]
                have hle1 := (weight_get_wf vm hwm
                  (vm.maxima_get (vm.grid.voronoi_shift p sa.1))).2
                have : ((vm.weight_get (vm.maxima_get
                    (vm.grid.voronoi_shift p sa.1))).map decode_weight).sum *
                    ((density.getD (vm.grid.voronoi_shift p sa.1).toNat 0
                      - density.getD p.toNat 0) * sa.2) ≤
                    1 * ((density.getD (vm.grid.voronoi_shift p sa.1).toNat 0
                      - density.getD p.toNat 0) * sa.2) :=
                  mul_le_mul_of_nonneg_right hle1 hrho
                have h2' := h2
                nlinarith [this, h2']
              }
          case neg =>
            by_cases hm2 : -1 < vm.maxima_get (vm.grid.voronoi_shift p sa.1)
            case pos =>
              simp only [if_neg hm1, if_pos hm2]
              first
              | exact add_entry_nonneg st.1 _ _ h1 hrho
              | {
                  rw [add_entry_sum]
                  linarith [h2]
                }
            case neg =>
              simp only [if_neg hm1, if_neg hm2]
              first
              | exact h1
              | linarith [h2]
        case neg =>
          rw [if_neg hcd]
          first
          | exact h1
          | exact h2
      }
  exact main (vm.grid.voronoi.vectors.zip vm.grid.voronoi.alphas) hzip
    ([], 0) (by simp) (by simp)

end Bader

namespace Bader

/-- Every survivor of the tolerance filter exceeds the tolerance and is a
`t_sum`-normalized bucket. -/
theorem mem_survivorsOf {ws : List (ℕ × ℚ)} {t tol : ℚ} {e : ℕ × ℚ}
    (he : e ∈ survivorsOf ws t tol) :
    tol < e.2 ∧ ∃ mw ∈ ws, e = (mw.1, mw.2 / t) := by
  simp only [survivorsOf, List.mem_filterMap] at he
  obtain ⟨mw, hmw, heq⟩ := he
  by_cases hc : tol < mw.2 / t
  · rw [if_pos hc] at heq
    have he2 := (Option.some_injective _ heq)
    refine ⟨?_, mw, hmw, he2.symm⟩
    rw [← he2]
    exact hc
  · rw [if_neg hc] at heq
    cases heq

/-- Sum of quotients is the quotient of the sum. -/
theorem sum_map_div (l : List ℚ) (c : ℚ) :
    (l.map (fun x => x / c)).sum = l.sum / c := by
  induction l with
  | nil => simp
  | cons x t ih =>
    simp only [List.map_cons, List.sum_cons, ih]
    ring

/-- The surviving normalized weights total at most the full normalized
bucket mass. -/
theorem survivors_sum_le_normalized (t tol : ℚ) :
    ∀ ws : List (ℕ × ℚ), (∀ mw ∈ ws, 0 ≤ mw.2 / t) →
      ((survivorsOf ws t tol).map (·.2)).sum ≤
        (ws.map (fun mw => mw.2 / t)).sum := by
  intro ws
  induction ws with
  | nil => intro _; simp [survivorsOf]
  | cons mw rest ih =>
    intro hnn
    have hrest := fun x hx => hnn x (List.mem_cons_of_mem mw hx)
    have hmw := hnn mw (List.mem_cons_self mw rest)
    simp only [survivorsOf, List.filterMap_cons] at *
    by_cases hc : tol < mw.2 / t
    · rw [if_pos hc]
      simp only [List.map_cons, List.sum_cons]
      have := ih hrest
      simp only [survivorsOf] at this
      linarith
    · rw [if_neg hc]
      simp only [List.map_cons, List.sum_cons]
      have := ih hrest
      simp only [survivorsOf] at this
      linarith

/-- The surviving normalized weights sum to at most one. -/
theorem survivors_sum_le (ws : List (ℕ × ℚ)) (t tol : ℚ)
    (hnn : ∀ mw ∈ ws, 0 ≤ mw.2) (ht : 0 < t)
    (hsum : (ws.map (·.2)).sum ≤ t) :
    ((survivorsOf ws t tol).map (·.2)).sum ≤ 1 := by
  have h1 := survivors_sum_le_normalized t tol ws
    (fun mw hmw => div_nonneg (hnn mw hmw) (le_of_lt ht))
  have h2 : (ws.map (fun mw => mw.2 / t)).sum = (ws.map (·.2)).sum / t := by
    have : ws.map (fun mw => mw.2 / t) = (ws.map (·.2)).map (fun x => x / t) := by
      rw [List.map_map]
      rfl
    rw [this, sum_map_div]
  have h3 : (ws.map (·.2)).sum / t ≤ 1 := by
    rw [div_le_one ht]
    exact hsum
  calc ((survivorsOf ws t tol).map (·.2)).sum
      ≤ (ws.map (fun mw => mw.2 / t)).sum := h1
    _ = (ws.map (·.2)).sum / t := h2
    _ ≤ 1 := h3

/-- A nonempty survivor list forces a strictly positive total upward
flux. -/
theorem t_sum_pos (ws : List (ℕ × ℚ)) (t tol : ℚ) (htol : 0 ≤ tol)
    (hnn : ∀ mw ∈ ws, 0 ≤ mw.2) (hne : survivorsOf ws t tol ≠ []) :
    0 < t := by
  obtain ⟨e, he⟩ := List.exists_mem_of_ne_nil _ hne
  obtain ⟨hetol, mw, hmw, heq⟩ := mem_survivorsOf he
  have hpos : 0 < mw.2 / t := by
    rw [heq] at hetol
    exact lt_of_le_of_lt htol hetol
  rcases lt_trichotomy t 0 with hlt | hzero | hgt
  · exfalso
    have : mw.2 / t ≤ 0 := div_nonpos_of_nonneg_of_nonpos (hnn mw hmw)
      (le_of_lt hlt)
    linarith
  · exfalso
    rw [hzero, div_zero] at hpos
    exact lt_irrefl 0 hpos
  · exact hgt

/-- In a length-≥-2 list of positive rationals every entry is strictly
below the sum. -/
theorem lt_sum_of_two (l : List ℚ) (hpos : ∀ x ∈ l, 0 < x)
    (hlen : 1 < l.length) : ∀ x ∈ l, x < l.sum := by
  intro x hx
  have hperm : l.Perm (x :: l.erase x) := List.perm_cons_erase hx
  have hsum : l.sum = x + (l.erase x).sum := by
    rw [hperm.sum_eq]
    simp
  have herase_len : (l.erase x).length = l.length - 1 :=
    List.length_erase_of_mem hx
  have herase_ne : l.erase x ≠ [] := by
    intro hcon
    rw [hcon] at herase_len
    simp at herase_len
    omega
  have herase_pos : 0 < (l.erase x).sum :=
    List.sum_pos _ (fun y hy => hpos y (List.mem_of_mem_erase hy)) herase_ne
  rw [hsum]
  linarith

end Bader

namespace Bader

/-- Decoding inverts the compact encoding for any fractional part in
`[0, 1)`. -/
theorem decode_encode_weight (m : ℕ) (w : ℚ) (h0 : 0 ≤ w) (h1 : w < 1) :
    decode_weight (encode_weight m w) = w := by
  have hfl : ⌊(m : ℚ) + w⌋ = m := by
    rw [add_comm, Int.floor_add_nat]
    have h : ⌊w⌋ = 0 := Int.floor_eq_zero_iff.mpr ⟨h0, h1⟩
    rw [h]; ring
  simp [decode_weight, decode_maxima, encode_weight, hfl]

/-- C3: with at least two upward-flux buckets, nonnegative alphas,
well-formed stored mixtures and a nonnegative tolerance, `weight_step`
normalizes by `t_sum`, drops weights not exceeding the tolerance and
renormalizes the nonempty survivor list: a single survivor yields an
`Interier` result, and two or more survivors yield a `Boundary` list
whose decoded fractional weights are sorted non-increasingly, lie in
`(tol, 1]`, and sum to exactly 1 (within 1e-10 in particular). -/
theorem weight_step_normalization (p : Int) (density : List ℚ)
    (vm : VoxelMap) (tol : ℚ)
    (halpha : ∀ al ∈ vm.grid.voronoi.alphas, 0 ≤ al)
    (hwm : ∀ l ∈ vm.weight_map, (∀ w ∈ l, 0 ≤ decode_weight w) ∧
      (l.map decode_weight).sum ≤ 1)
    (htol : 0 ≤ tol)
    (h2 : 1 < (weight_step_scan p density vm).1.length)
    (hsur : survivorsOf (weight_step_scan p density vm).1
      (weight_step_scan p density vm).2 tol ≠ []) :
    (∀ m w, survivorsOf (weight_step_scan p density vm).1
        (weight_step_scan p density vm).2 tol = [(m, w)] →
      weight_step p density vm tol = some (.Interier m)) ∧
    (1 < (survivorsOf (weight_step_scan p density vm).1
        (weight_step_scan p density vm).2 tol).length →
      ∃ ws', weight_step p density vm tol = some (.Boundary ws') ∧
        ws'.length = (survivorsOf (weight_step_scan p density vm).1
          (weight_step_scan p density vm).2 tol).length ∧
        List.Sorted (fun a b => b ≤ a) (ws'.map decode_weight) ∧
        (∀ w ∈ ws', tol < decode_weight w ∧ decode_weight w ≤ 1) ∧
        (ws'.map decode_weight).sum = 1) := by
  obtain ⟨hnn, hle⟩ := weight_step_scan_invariant p density vm halpha hwm
  have ht : 0 < (weight_step_scan p density vm).2 :=
    t_sum_pos _ _ tol htol hnn hsur
  set W := (weight_step_scan p density vm).1 with hW
  set T := (weight_step_scan p density vm).2 with hT
  set s := survivorsOf W T tol with hs
  have hspos : ∀ e ∈ s, tol < e.2 ∧ 0 < e.2 := by
    intro e he
    obtain ⟨h1, -⟩ := mem_survivorsOf he
    exact ⟨h1, lt_of_le_of_lt htol h1⟩
  have htot_le : (s.map (·.2)).sum ≤ 1 := survivors_sum_le W T tol hnn ht hle
  constructor
  · intro m w hs1
    simp only [weight_step, weight_step_post, if_pos h2, ← hs, hs1]
    simp
  · intro hlen
    have hmapne : s.map (·.2) ≠ [] := by
      intro hcon
      exact hsur (List.map_eq_nil_iff.mp hcon)
    have hvalpos : ∀ x ∈ s.map (·.2), 0 < x := by
      intro x hx
      obtain ⟨e, he, rfl⟩ := List.mem_map.mp hx
      exact (hspos e he).2
    have htot_pos : 0 < (s.map (·.2)).sum :=
      List.sum_pos _ hvalpos hmapne
    have hvlen : 1 < (s.map (·.2)).length := by
      rw [List.length_map]
      exact hlen
    haveI : IsTotal (ℕ × ℚ) (fun a b => b.2 ≤ a.2) :=
      ⟨fun a b => le_total b.2 a.2⟩
    haveI : IsTrans (ℕ × ℚ) (fun a b => b.2 ≤ a.2) :=
      ⟨fun a b c hab hbc => le_trans hbc hab⟩
    have hperm : (sortWeightsDesc s).Perm s := by
      unfold sortWeightsDesc
      exact List.perm_insertionSort _ s
    have hmem_s : ∀ mw ∈ sortWeightsDesc s, mw ∈ s :=
      fun mw hmw => hperm.mem_iff.mp hmw
    have hlt_total : ∀ mw ∈ s, mw.2 < (s.map (·.2)).sum := by
      intro mw hmw
      exact lt_sum_of_two (s.map (·.2)) hvalpos hvlen mw.2
        (List.mem_map_of_mem (·.2) hmw)
    have hdecode : ∀ mw ∈ sortWeightsDesc s,
        decode_weight (encode_weight mw.1 (mw.2 / (s.map (·.2)).sum)) =
          mw.2 / (s.map (·.2)).sum := by
      intro mw hmw
      have hmem := hmem_s mw hmw
      refine decode_encode_weight mw.1 _ ?_ ?_
      · exact le_of_lt (div_pos (hspos mw hmem).2 htot_pos)
      · rw [div_lt_one htot_pos]
        exact hlt_total mw hmem
    have hmapeq : (((sortWeightsDesc s).map
        (fun mw => encode_weight mw.1 (mw.2 / (s.map (·.2)).sum))).map
          decode_weight) =
        (sortWeightsDesc s).map (fun mw => mw.2 / (s.map (·.2)).sum) := by
      rw [List.map_map]
      exact List.map_congr_left hdecode
    refine ⟨(sortWeightsDesc s).map
      (fun mw => encode_weight mw.1 (mw.2 / (s.map (·.2)).sum)), ?_, ?_, ?_, ?_, ?_⟩
    · simp only [weight_step, weight_step_post, if_pos h2, ← hs, if_pos hlen]
    · rw [List.length_map, hperm.length_eq]
    · rw [hmapeq]
      have hsorted : List.Sorted (fun a b : ℕ × ℚ => b.2 ≤ a.2)
          (sortWeightsDesc s) := by
        unfold sortWeightsDesc
        exact List.sorted_insertionSort _ s
      exact List.Pairwise.map _ (fun a b hab =>
        (div_le_div_iff_of_pos_right htot_pos).mpr hab) hsorted
    · intro w hw
      obtain ⟨mw, hmw, rfl⟩ := List.mem_map.mp hw
      rw [hdecode mw hmw]
      have hmem := hmem_s mw hmw
      constructor
      · have h1 : mw.2 ≤ mw.2 / (s.map (·.2)).sum := by
          rw [le_div_iff₀ htot_pos]
          calc mw.2 * (s.map (·.2)).sum ≤ mw.2 * 1 :=
            mul_le_mul_of_nonneg_left htot_le (le_of_lt (hspos mw hmem).2)
          _ = mw.2 := mul_one _
        exact lt_of_lt_of_le (hspos mw hmem).1 h1
      · exact le_of_lt ((div_lt_one htot_pos).mpr (hlt_total mw hmem))
    · rw [hmapeq]
      have : (sortWeightsDesc s).map (fun mw => mw.2 / (s.map (·.2)).sum) =
          ((sortWeightsDesc s).map (·.2)).map
            (fun x => x / (s.map (·.2)).sum) := by
        rw [List.map_map]
        rfl
      rw [this, sum_map_div, (hperm.map (·.2)).sum_eq]
      exact div_self (ne_of_gt htot_pos)

end Bader

namespace Bader

/-- A four-voxel line grid with two Voronoi neighbours (left and right,
alpha 1 each); voxels 0 and 3 belong to basin 0, voxel 2 to basin 2. -/
def vmScan : VoxelMap :=
  { grid :=
      { size := ⟨4, 1, 1⟩
        voxel_lattice := { to_cartesian := idMat, volume := 1 }
        voronoi := { vectors := [(1, 0, 0), (-1, 0, 0)], alphas := [1, 1] }
        voxel_origin := (0, 0, 0) }
    voxel_map := [0, -1, 2, 0]
    weight_map := []
    maxima_map := [] }

/-- Witness for C3: at voxel 1 of density `[5, 1, 6, 0]` the scan yields
buckets `[(2, 5), (0, 4)]` with `t_sum = 9`; both survive the `1e-8`
tolerance, and the theorem applies. -/
theorem weight_step_normalization_witness :
    (∀ al ∈ vmScan.grid.voronoi.alphas, (0 : ℚ) ≤ al) ∧
    (∀ l ∈ vmScan.weight_map, (∀ w ∈ l, 0 ≤ decode_weight w) ∧
      (l.map decode_weight).sum ≤ 1) ∧
    (0 : ℚ) ≤ 1/100000000 ∧
    1 < (weight_step_scan 1 [5, 1, 6, 0] vmScan).1.length ∧
    survivorsOf (weight_step_scan 1 [5, 1, 6, 0] vmScan).1
      (weight_step_scan 1 [5, 1, 6, 0] vmScan).2 (1/100000000) ≠ [] ∧
    ((∀ m w, survivorsOf (weight_step_scan 1 [5, 1, 6, 0] vmScan).1
        (weight_step_scan 1 [5, 1, 6, 0] vmScan).2 (1/100000000) = [(m, w)] →
      weight_step 1 [5, 1, 6, 0] vmScan (1/100000000) =
        some (.Interier m)) ∧
    (1 < (survivorsOf (weight_step_scan 1 [5, 1, 6, 0] vmScan).1
        (weight_step_scan 1 [5, 1, 6, 0] vmScan).2 (1/100000000)).length →
      ∃ ws', weight_step 1 [5, 1, 6, 0] vmScan (1/100000000) =
          some (.Boundary ws') ∧
        ws'.length = (survivorsOf (weight_step_scan 1 [5, 1, 6, 0] vmScan).1
          (weight_step_scan 1 [5, 1, 6, 0] vmScan).2 (1/100000000)).length ∧
        List.Sorted (fun a b => b ≤ a) (ws'.map decode_weight) ∧
        (∀ w ∈ ws', 1/100000000 < decode_weight w ∧ decode_weight w ≤ 1) ∧
        (ws'.map decode_weight).sum = 1)) := by
  have hscan : weight_step_scan 1 [5, 1, 6, 0] vmScan = ([(2, 5), (0, 4)], 9) := by
    norm_num [weight_step_scan, weight_step_scan_step, add_entry,
      Grid.voronoi_shift, VoxelMap.maxima_get, VoxelMap.weight_get, vmScan,
      show Int.toNat 0 = 0 from rfl, show Int.toNat 1 = 1 from rfl,
      show Int.toNat 2 = 2 from rfl, show Int.toNat 3 = 3 from rfl]
  have halpha : ∀ al ∈ vmScan.grid.voronoi.alphas, (0 : ℚ) ≤ al := by
    intro al hal
    simp only [vmScan, List.mem_cons, List.mem_singleton] at hal
    rcases hal with rfl | rfl | h
    · norm_num
    · norm_num
    · simp at h
  have hwm : ∀ l ∈ vmScan.weight_map, (∀ w ∈ l, 0 ≤ decode_weight w) ∧
      (l.map decode_weight).sum ≤ 1 := by
    intro l hl
    simp [vmScan] at hl
  have h2 : 1 < (weight_step_scan 1 [5, 1, 6, 0] vmScan).1.length := by
    rw [hscan]
    norm_num
  have hsurv_eq : survivorsOf (weight_step_scan 1 [5, 1, 6, 0] vmScan).1
      (weight_step_scan 1 [5, 1, 6, 0] vmScan).2 (1/100000000) =
      [(2, 5/9), (0, 4/9)] := by
    rw [hscan]
    norm_num [survivorsOf, List.filterMap_cons]
  have hsur : survivorsOf (weight_step_scan 1 [5, 1, 6, 0] vmScan).1
      (weight_step_scan 1 [5, 1, 6, 0] vmScan).2 (1/100000000) ≠ [] := by
    rw [hsurv_eq]
    simp
  exact ⟨halpha, hwm, by norm_num, h2, hsur,
    weight_step_normalization 1 [5, 1, 6, 0] vmScan (1/100000000)
      halpha hwm (by norm_num) h2 hsur⟩

end Bader
